import Mathlib

/-!
Verification development for the ToastMark incremental markdown engine.

The repository ships the engine's test-suites and documentation; the engine
itself (block parser, incremental reparser, renderer) is modelled here from
the specification, as executable Lean definitions, and the specified
properties are proved about that model.
-/

set_option maxHeartbeats 1000000

namespace ToastSpec

/-- The backtick character, written by code point to keep sources plain. -/
def fenceChar : Char := Char.ofNat 96

/-- A line is blank when it contains only spaces and tabs. -/
def isBlank (s : String) : Bool :=
  s.data.all (fun c => c = ' ' || c = '\t')

/-- Length of the run of leading backticks of a line. -/
def fenceLen (s : String) : Nat :=
  (s.data.takeWhile (fun c => c = fenceChar)).length

/-- Modelled from the spec: a line opens a fenced code block when it starts
with a run of at least three backticks. -/
def isFenceOpen (s : String) : Bool :=
  3 ≤ fenceLen s

/-- Modelled from the spec: recognize a reference-definition line
`[label]: destination`; returns the label and the destination. -/
def parseRefDef (s : String) : Option (String × String) :=
  match s.data with
  | '[' :: rest =>
    let lab := rest.takeWhile (fun c => c ≠ ']')
    match rest.dropWhile (fun c => c ≠ ']') with
    | ']' :: ':' :: d =>
      some (String.mk lab, String.mk (d.dropWhile (fun c => c = ' ')))
    | _ => none
  | _ => none

/-- A line is reference-definition shaped. -/
def isRefDefLine (s : String) : Bool :=
  (parseRefDef s).isSome

/-- Split a character list on newline characters. -/
def splitNL : List Char → List String
  | [] => [""]
  | c :: cs =>
    let rest := splitNL cs
    if c = '\n' then "" :: rest
    else
      match rest with
      | h :: t => (String.mk (c :: h.data)) :: t
      | [] => [String.mk [c]]

/-- Document text as a list of lines. -/
def toLines (s : String) : List String := splitNL s.data

/-- Join lines with newline characters (inverse of `toLines`). -/
def joinLines (ls : List String) : String :=
  String.mk (match ls with
  | [] => []
  | h :: t => h.data ++ (t.flatMap (fun l => '\n' :: l.data)))

/-- Parser-mode options (only the mode the claims exercise is modelled). -/
structure ParserOptions where
  referenceDefinition : Bool := false
  deriving Repr, DecidableEq

/-! ## Block parser

Modelled from the spec: a CommonMark-style block-level state machine over
lines.  The modelled grammar covers paragraphs (maximal runs of non-blank
lines), backtick-fenced code blocks (opened by a line of at least three
backticks, closed by a line with at least as many leading backticks, or
running to the document end), and — when the `referenceDefinition` option is
on — single-line reference definitions recognized only at top level (a
definition-shaped line inside a paragraph continues the paragraph). -/

/-- Kind tag of a raw block produced by the block pass. -/
inductive RawKind where
  | para : RawKind
  | code : RawKind
  | refdef : (label : String) → (dest : String) → RawKind
  deriving Repr, DecidableEq

/-- A raw block: kind, first line number (1-based), and its source lines. -/
structure RawBlock where
  kind : RawKind
  startLine : Nat
  lines : List String
  deriving Repr, DecidableEq

/-- Last line number of a raw block. -/
def RawBlock.endLine (r : RawBlock) : Nat :=
  r.startLine + r.lines.length - 1

/-- Open-block state of the block parser. -/
inductive PState where
  | top : PState
  | inPara : (start : Nat) → (acc : List String) → PState
  | inFence : (start : Nat) → (n : Nat) → (acc : List String) → PState
  deriving Repr, DecidableEq

/-- Modelled from the spec: one step of the block state machine, consuming
line number `ln` with content `l`.  Returns the blocks closed by this line
and the successor state. -/
def pstep (opts : ParserOptions) (st : PState) (ln : Nat) (l : String) :
    List RawBlock × PState :=
  match st with
  | .inFence s n acc =>
    if n ≤ fenceLen l then ([⟨.code, s, acc ++ [l]⟩], .top)
    else ([], .inFence s n (acc ++ [l]))
  | .inPara s acc =>
    if isBlank l then ([⟨.para, s, acc⟩], .top)
    else if isFenceOpen l then ([⟨.para, s, acc⟩], .inFence ln (fenceLen l) [l])
    else ([], .inPara s (acc ++ [l]))
  | .top =>
    if isBlank l then ([], .top)
    else if isFenceOpen l then ([], .inFence ln (fenceLen l) [l])
    else if opts.referenceDefinition then
      match parseRefDef l with
      | some (lab, d) => ([⟨.refdef lab d, ln, [l]⟩], .top)
      | none => ([], .inPara ln [l])
    else ([], .inPara ln [l])

/-- Core fold of the block parser over lines starting at line number `n`:
emitted blocks plus the final (possibly still open) state. -/
def goCore (opts : ParserOptions) : Nat → PState → List String →
    List RawBlock × PState
  | _, st, [] => ([], st)
  | n, st, l :: ls =>
    let p := pstep opts st n l
    let q := goCore opts (n + 1) p.2 ls
    (p.1 ++ q.1, q.2)

/-- Close the still-open block at end of input. -/
def pflush : PState → List RawBlock
  | .top => []
  | .inPara s acc => [⟨.para, s, acc⟩]
  | .inFence s _ acc => [⟨.code, s, acc⟩]

/-- Modelled from the spec: parse lines (numbered from `n`) into raw
blocks, closing any open block at the end of input. -/
def parseRawFrom (opts : ParserOptions) (n : Nat) (ls : List String) :
    List RawBlock :=
  (goCore opts n .top ls).1 ++ pflush (goCore opts n .top ls).2

/-- Parse a whole document's lines into raw blocks. -/
def parseRaw (opts : ParserOptions) (ls : List String) : List RawBlock :=
  parseRawFrom opts 1 ls

/-- Modelled from the spec: the label→destination reference map collected
from the document's reference-definition blocks (first definition wins via
list lookup order). -/
def refMapOf (raws : List RawBlock) : List (String × String) :=
  raws.filterMap (fun r =>
    match r.kind with
    | .refdef lab d => some (lab, d)
    | _ => none)

/-- First-match lookup in the reference map. -/
def lookupRef (m : List (String × String)) (lab : String) : Option String :=
  match m.find? (fun p => p.1 = lab) with
  | some p => some p.2
  | none => none

/-! ## The tree

Modelled from the spec: each node carries a stable integer id (unique,
monotonically increasing per document), a source span (start/end line and
column, inclusive), a kind-specific payload, and the tree structure.  The
modelled grammar yields a two-level tree: top-level blocks whose leaf
content is a list of inline nodes.  The inline pass resolves a paragraph
consisting of a single `[label]` against the reference map into a link
node, and otherwise produces a text node holding the paragraph literal. -/

/-- Inline node kinds of the model. -/
inductive IKind where
  | text : IKind
  | link : (destination : String) → IKind
  deriving Repr, DecidableEq

/-- An inline (leaf) node. -/
structure Inline where
  id : Nat
  kind : IKind
  literal : String
  sl : Nat
  sc : Nat
  el : Nat
  ec : Nat
  deriving Repr, DecidableEq

/-- Block node kinds of the model (`htmlBlock` is produced only by direct
tree construction, for the renderer; the modelled grammar never emits it). -/
inductive BKind where
  | paragraph : BKind
  | codeBlock : BKind
  | refDef : BKind
  | htmlBlock : BKind
  deriving Repr, DecidableEq

/-- A top-level block node. -/
structure Block where
  id : Nat
  kind : BKind
  literal : String
  sl : Nat
  sc : Nat
  el : Nat
  ec : Nat
  inlines : List Inline
  deriving Repr, DecidableEq

/-- Column of the last character of the last line of a block (at least 1). -/
def lastCol (ls : List String) : Nat :=
  max 1 (ls.getLast? |>.map (fun l => l.data.length) |>.getD 1)

/-- Modelled from the spec: the inline interpretation of a paragraph
literal — a literal of the exact shape `[label]` whose label is in the
reference map becomes a link, anything else text.  Returns kind and
literal. -/
def inlineContent (rm : List (String × String)) (lit : String) :
    IKind × String :=
  match lit.data with
  | '[' :: rest =>
    if rest ≠ [] ∧ rest.getLast? = some ']' ∧
        (rest.dropLast.all (fun c => c ≠ ']' ∧ c ≠ '[')) then
      let lab := String.mk rest.dropLast
      match lookupRef rm lab with
      | some d => (.link d, lab)
      | none => (.text, lit)
    else (.text, lit)
  | _ => (.text, lit)

/-- Modelled from the spec: build the inline node of a paragraph. -/
def inlineOf (rm : List (String × String)) (nid : Nat) (lit : String)
    (sl sc el ec : Nat) : Inline :=
  ⟨nid, (inlineContent rm lit).1, (inlineContent rm lit).2, sl, sc, el, ec⟩

/-- Modelled from the spec: build one block node (and allocate ids) from a
raw block, resolving inline content against the reference map. -/
def buildBlock (rm : List (String × String)) (nid : Nat) (r : RawBlock) :
    Block × Nat :=
  match r.kind with
  | .para =>
    let lit := joinLines r.lines
    let i := inlineOf rm (nid + 1) lit r.startLine 1 r.endLine (lastCol r.lines)
    (⟨nid, .paragraph, lit, r.startLine, 1, r.endLine, lastCol r.lines, [i]⟩,
      nid + 2)
  | .code =>
    (⟨nid, .codeBlock, joinLines r.lines, r.startLine, 1, r.endLine,
      lastCol r.lines, []⟩, nid + 1)
  | .refdef _ _ =>
    (⟨nid, .refDef, joinLines r.lines, r.startLine, 1, r.endLine,
      lastCol r.lines, []⟩, nid + 1)

/-- Build a list of blocks, threading the id counter. -/
def buildBlocks (rm : List (String × String)) : Nat → List RawBlock →
    List Block × Nat
  | nid, [] => ([], nid)
  | nid, r :: rs =>
    let p := buildBlock rm nid r
    let q := buildBlocks rm p.2 rs
    (p.1 :: q.1, q.2)

/-- The canonical (fresh-parse) blocks of a document, ids from `nid`. -/
def canonFrom (opts : ParserOptions) (nid : Nat) (ls : List String) :
    List Block × Nat :=
  buildBlocks (refMapOf (parseRaw opts ls)) nid (parseRaw opts ls)

/-- The canonical fresh-parse blocks of a document, ids from 1. -/
def canonBlocks (opts : ParserOptions) (ls : List String) : List Block :=
  (canonFrom opts 1 ls).1

/-- Modelled from the spec: a document owns the ordered line buffer, the
top-level blocks, the per-document monotonic id counter, and the parser
options. -/
structure Doc where
  opts : ParserOptions
  lines : List String
  blocks : List Block
  nextId : Nat
  deriving Repr, DecidableEq

/-- Fresh document from lines. -/
def Doc.fromLines (opts : ParserOptions) (ls : List String) : Doc :=
  ⟨opts, ls, (canonFrom opts 1 ls).1, (canonFrom opts 1 ls).2⟩

/-- Modelled from the spec: `new ToastMark(text, options)` — fresh parse of
the given text. -/
def ToastMark.new (text : String) (opts : ParserOptions := {}) : Doc :=
  Doc.fromLines opts (toLines text)

/-- A block with its id erased (and inline ids erased). -/
def Block.strip (b : Block) : Block :=
  { b with id := 0, inlines := b.inlines.map (fun i => { i with id := 0 }) }

/-- Erase all ids from a block list. -/
def stripIds (bs : List Block) : List Block := bs.map Block.strip

/-! ## The incremental reparser

Modelled from the spec: `editMarkdown(start, end, text)` validates the
positions (OutOfRange when they exceed the buffer bounds, InvalidEdit when
the end precedes the start), splices the replacement text into the line
buffer, computes the minimal reparse window by walking out from the touched
blocks, widens it while an open paragraph or an unterminated fence at the
window seam depends on content beyond it (to the next matching closing
fence or the document end), falls back to a full-document reparse whenever
a reference-definition line is touched (with the option enabled) or the
seam conditions cannot be established, reparses the window as a fresh
sub-document with freshly allocated node ids, splices the result between
the untouched neighbours, and shifts the source positions of every
following node by the line-count delta. -/

/-- Lexicographic comparison of `[line, col]` positions. -/
def posLe (p q : Nat × Nat) : Bool :=
  decide (p.1 < q.1) || (decide (p.1 = q.1) && decide (p.2 ≤ q.2))

/-- Length of the 1-based `i`-th line. -/
def lineLen (ls : List String) (i : Nat) : Nat :=
  (((ls.get? (i - 1)).getD "").data).length

/-- A position lies within the buffer bounds. -/
def posValid (ls : List String) (p : Nat × Nat) : Bool :=
  decide (1 ≤ p.1) && decide (p.1 ≤ ls.length) &&
  decide (1 ≤ p.2) && decide (p.2 ≤ lineLen ls p.1 + 1)

/-- Replace the text between two buffer positions (the replacement may
contain newlines); returns the new line buffer. -/
def spliceLines (ls : List String) (s e : Nat × Nat) (text : String) :
    List String :=
  let front := ls.take (s.1 - 1)
  let back := ls.drop e.1
  let pre := (((ls.get? (s.1 - 1)).getD "").data).take (s.2 - 1)
  let suf := (((ls.get? (e.1 - 1)).getD "").data).drop (e.2 - 1)
  front ++ splitNL (pre ++ text.data ++ suf) ++ back

/-- The raw block whose line range contains the given line, if any. -/
def rawAt (raws : List RawBlock) (l : Nat) : Option RawBlock :=
  raws.find? (fun r => decide (r.startLine ≤ l) && decide (l ≤ r.endLine))

/-- Walk the window start leftwards while the preceding line still belongs
to a paragraph (which an edited first window line could merge with). -/
def extendLeft (raws : List RawBlock) : Nat → Nat → Nat
  | 0, ws => ws
  | f + 1, ws =>
    if ws ≤ 1 then ws
    else
      match rawAt raws (ws - 1) with
      | some r => if r.kind = RawKind.para then extendLeft raws f r.startLine
                  else ws
      | none => ws

/-- The new-buffer lines of the window `[ws, wn]`. -/
def windowNewLines (newLines : List String) (ws wn : Nat) : List String :=
  (newLines.take wn).drop (ws - 1)

/-- Index of the first element satisfying the test. -/
def firstIdx (p : String → Bool) : List String → Option Nat
  | [] => none
  | l :: ls => if p l then some 0 else (firstIdx p ls).map (· + 1)

/-- First line after `wn` whose leading backtick run reaches `n` (a
matching closing fence), as a 1-based global line number. -/
def findCloser (newLines : List String) (wn n : Nat) : Option Nat :=
  match firstIdx (fun l => decide (n ≤ fenceLen l)) (newLines.drop wn) with
  | some k => some (wn + k + 1)
  | none => none

/-- Widen the window end: an open paragraph at the seam absorbs following
lines, an unterminated fence extends to the next matching closer or the
document end, and a window end landing inside an old block is pushed to
that block's last line. -/
def extendRight (opts : ParserOptions) (oldRaws : List RawBlock)
    (oldLines newLines : List String) (ws : Nat) :
    Nat → Nat → Nat
  | 0, _ => oldLines.length
  | f + 1, weOld =>
    let wn := weOld + newLines.length - oldLines.length
    match (goCore opts ws .top (windowNewLines newLines ws wn)).2 with
    | .top => weOld
    | .inPara _ _ =>
      if newLines.length ≤ wn then weOld
      else
        let next := (newLines.get? wn).getD ""
        if isBlank next || isFenceOpen next then weOld
        else
          let w' := match rawAt oldRaws (weOld + 1) with
            | some r => max r.endLine (weOld + 1)
            | none => weOld + 1
          extendRight opts oldRaws oldLines newLines ws f w'
    | .inFence _ n _ =>
      if newLines.length ≤ wn then oldLines.length
      else
        match findCloser newLines wn n with
        | some j =>
          let w0 := weOld + (j - wn)
          let w' := match rawAt oldRaws w0 with
            | some r => max r.endLine w0
            | none => w0
          extendRight opts oldRaws oldLines newLines ws f w'
        | none => oldLines.length

/-- A parser state is acceptable at a window seam: a closed state always, an
open paragraph only when the following line cannot continue it, an open
fence only at the document end. -/
def seamStateOK (sW : PState) (suffix : List String) : Bool :=
  match sW with
  | .top => true
  | .inPara _ _ =>
    suffix.isEmpty || isBlank (suffix.headD "") || isFenceOpen (suffix.headD "")
  | .inFence _ _ _ => suffix.isEmpty

/-- The old-buffer lines of the window `[ws, weOld]`. -/
def windowOldLines (oldLines : List String) (ws weOld : Nat) : List String :=
  (oldLines.take weOld).drop (ws - 1)

/-- The decidable seam conditions under which splicing a window reparse
between the untouched neighbours reproduces a fresh full parse: matching
untouched outsides, a closed parser state entering the window, acceptable
seams on both the old and the new window, and no reference-definition line
inside either window when the option is enabled. -/
def guardOK (opts : ParserOptions) (oldLines newLines : List String)
    (ws weOld : Nat) : Bool :=
  let wn := weOld + newLines.length - oldLines.length
  let wOld := windowOldLines oldLines ws weOld
  let wNew := windowNewLines newLines ws wn
  decide (1 ≤ ws) && decide (ws ≤ weOld + 1) && decide (weOld ≤ oldLines.length) &&
  decide (ws ≤ wn + 1) && decide (wn ≤ newLines.length) &&
  decide (oldLines.take (ws - 1) = newLines.take (ws - 1)) &&
  decide (oldLines.drop weOld = newLines.drop wn) &&
  decide ((goCore opts 1 .top (newLines.take (ws - 1))).2 = .top) &&
  seamStateOK (goCore opts ws .top wNew).2 (newLines.drop wn) &&
  seamStateOK (goCore opts ws .top wOld).2 (oldLines.drop weOld) &&
  (!opts.referenceDefinition ||
    (wOld.all (fun l => !isRefDefLine l) && wNew.all (fun l => !isRefDefLine l)))

/-- Shift a block from old-buffer to new-buffer coordinates across the
window seam (`weOld` maps to `wn`). -/
def shiftBlock (weOld wn : Nat) (b : Block) : Block :=
  { b with
    sl := wn + (b.sl - weOld), el := wn + (b.el - weOld),
    inlines := b.inlines.map (fun i =>
      { i with sl := wn + (i.sl - weOld), el := wn + (i.el - weOld) }) }

/-- Failure taxonomy of `editMarkdown` (API misuse only). -/
inductive EditError where
  | outOfRange : EditError
  | invalidEdit : EditError
  deriving Repr, DecidableEq

/-- One contiguous replaced top-level region: the changed line range and
the live spliced-in sibling sequence. -/
structure EditResult where
  startLine : Nat
  endLine : Nat
  nodes : List Block
  deriving Repr, DecidableEq

/-- Modelled from the spec: `editMarkdown(start, end, text)`. -/
def editMarkdown (d : Doc) (s e : Nat × Nat) (text : String) :
    Except EditError (Doc × List EditResult) :=
  if !(posValid d.lines s && posValid d.lines e) then .error .outOfRange
  else if !posLe s e then .error .invalidEdit
  else
    let oldLines := d.lines
    let newLines := spliceLines oldLines s e text
    let oldRaws := parseRaw d.opts oldLines
    let ws0 := match rawAt oldRaws s.1 with
      | some r => r.startLine
      | none => s.1
    let ws1 := extendLeft oldRaws (ws0 + 1) ws0
    let we0 := max (match rawAt oldRaws e.1 with
      | some r => r.endLine
      | none => e.1) ws1
    let we1 := extendRight d.opts oldRaws oldLines newLines ws1
      (oldLines.length + 1) we0
    if guardOK d.opts oldLines newLines ws1 we1 then
      let wn := we1 + newLines.length - oldLines.length
      let rm := refMapOf (parseRaw d.opts newLines)
      let wRaws := parseRawFrom d.opts ws1 (windowNewLines newLines ws1 wn)
      let fr := buildBlocks rm d.nextId wRaws
      let kept1 := d.blocks.takeWhile (fun b => decide (b.el < ws1))
      let kept2 := (d.blocks.dropWhile (fun b => decide (b.sl ≤ we1))).map
        (shiftBlock we1 wn)
      .ok (⟨d.opts, newLines, kept1 ++ fr.1 ++ kept2, fr.2⟩,
        [⟨ws1, wn, fr.1⟩])
    else
      let bs := canonFrom d.opts d.nextId newLines
      .ok (⟨d.opts, newLines, bs.1, bs.2⟩, [⟨1, newLines.length, bs.1⟩])

/-- Apply a sequence of edits, failing when any single edit fails. -/
def applyEdits (d : Doc) :
    List ((Nat × Nat) × (Nat × Nat) × String) → Option Doc
  | [] => some d
  | (s, e, t) :: rest =>
    match editMarkdown d s e t with
    | .ok (d', _) => applyEdits d' rest
    | .error _ => none

/-- All node ids of the blocks are below the bound. -/
def allIdsLt (bs : List Block) (n : Nat) : Prop :=
  ∀ b ∈ bs, b.id < n ∧ ∀ i ∈ b.inlines, i.id < n

instance (bs : List Block) (n : Nat) : Decidable (allIdsLt bs n) := by
  unfold allIdsLt; infer_instance

/-- The document invariant: its tree is (modulo ids) the fresh parse of its
line buffer, and all node ids are below the id counter. -/
def Doc.Synced (d : Doc) : Prop :=
  stripIds d.blocks = stripIds (canonBlocks d.opts d.lines) ∧
  allIdsLt d.blocks d.nextId

instance (d : Doc) : Decidable d.Synced := by
  unfold Doc.Synced; infer_instance

/-! ## Node lookup -/

/-- A position lies in an inclusive `[sl,sc]-[el,ec]` source span. -/
def posInSpan (p : Nat × Nat) (sl sc el ec : Nat) : Bool :=
  (decide (sl < p.1) || (decide (sl = p.1) && decide (sc ≤ p.2))) &&
  (decide (p.1 < el) || (decide (p.1 = el) && decide (p.2 ≤ ec)))

/-- A block's span contains the position. -/
def Block.containsPos (b : Block) (p : Nat × Nat) : Bool :=
  posInSpan p b.sl b.sc b.el b.ec

/-- An inline's span contains the position. -/
def Inline.containsPos (i : Inline) (p : Nat × Nat) : Bool :=
  posInSpan p i.sl i.sc i.el i.ec

/-- A node of the two-level tree. -/
inductive FoundNode where
  | blockNode : Block → FoundNode
  | inlineNode : Inline → FoundNode
  deriving Repr, DecidableEq

/-- Modelled from the spec: `findNodeAtPosition([line,col])` — the deepest
node whose source span contains the position, `null` on blank-line gaps
between nodes and out-of-range positions. -/
def findNodeAtPosition (d : Doc) (p : Nat × Nat) : Option FoundNode :=
  match d.blocks.find? (fun b => b.containsPos p) with
  | none => none
  | some b =>
    match b.inlines.find? (fun i => i.containsPos p) with
    | some i => some (.inlineNode i)
    | none => some (.blockNode b)

/-! ## Renderer / token pipeline

Modelled from the spec: a pre-order walk produces typed tokens
(`openTag`/`closeTag`/`text`/`html`) which are linearized to HTML text;
`text` content is HTML-escaped (exactly the five characters), `html`
content is emitted verbatim; with the `nodeId` option each node's
top-level tag carries a `data-nodeid` attribute, and an `htmlBlock` gets an
extra wrapping `div` to carry it. -/

/-- Render token. -/
inductive Token where
  | openTag : (tagName : String) → (attrs : List (String × String)) →
      (classNames : List String) → (selfClose : Bool) →
      (outerNL innerNL : Bool) → Token
  | closeTag : (tagName : String) → (outerNL innerNL : Bool) → Token
  | text : (content : String) → Token
  | html : (content : String) → Token
  deriving Repr, DecidableEq

/-- The double-quote character. -/
def quoteChar : Char := Char.ofNat 34

/-- The apostrophe character. -/
def aposChar : Char := Char.ofNat 39

/-- The five HTML-escaped characters. -/
def fiveEsc : List Char := ['&', '<', '>', quoteChar, aposChar]

/-- Escape a single character for HTML text content. -/
def escapeChar (c : Char) : String :=
  if c = '&' then "&amp;"
  else if c = '<' then "&lt;"
  else if c = '>' then "&gt;"
  else if c = quoteChar then "&quot;"
  else if c = aposChar then "&#39;"
  else String.mk [c]

/-- HTML-escape a string (escapes exactly the five characters). -/
def escapeHtml (s : String) : String :=
  String.mk (s.data.flatMap (fun c => (escapeChar c).data))

/-- Attribute list rendering: ` k="v"` pairs. -/
def attrsHtml (attrs : List (String × String)) : String :=
  String.join (attrs.map (fun a =>
    " " ++ a.1 ++ "=" ++ String.mk [quoteChar] ++ a.2 ++ String.mk [quoteChar]))

/-- Class attribute rendering. -/
def classHtml (cls : List String) : String :=
  match cls with
  | [] => ""
  | _ => " class=" ++ String.mk [quoteChar] ++ String.intercalate " " cls ++
      String.mk [quoteChar]

/-- Linearize one token (newline control handled by `renderGo`). -/
def tokenHtml : Token → String
  | .openTag tag attrs cls sc _ _ =>
    "<" ++ tag ++ classHtml cls ++ attrsHtml attrs ++ (if sc then " />" else ">")
  | .closeTag tag _ _ => "</" ++ tag ++ ">"
  | .text c => escapeHtml c
  | .html c => c

/-- Does the token ask for a newline before its own text? -/
def nlBefore : Token → Bool
  | .openTag _ _ _ _ outer _ => outer
  | .closeTag _ _ inner => inner
  | _ => false

/-- Does the token ask for a newline after its own text? -/
def nlAfter : Token → Bool
  | .openTag _ _ _ _ _ inner => inner
  | .closeTag _ outer _ => outer
  | _ => false

/-- Linearize a token stream; the flag records a just-inserted newline so
that consecutive inserted newlines collapse to one. -/
def renderGo : Bool → List Token → String
  | _, [] => ""
  | nl, t :: ts =>
    (if nlBefore t && !nl then "\n" else "") ++ tokenHtml t ++
      renderGo (nlAfter t) ts

/-- Linearize a token stream to HTML text (no newline at buffer start). -/
def renderTokens (ts : List Token) : String := renderGo true ts

/-- The identifying attribute of a node's top-level tag. -/
def idAttr (nodeId : Bool) (id : Nat) : List (String × String) :=
  if nodeId then [("data-nodeid", toString id)] else []

/-- Modelled from the spec: default converter for an inline node. -/
def inlineTokens (nodeId : Bool) (i : Inline) : List Token :=
  match i.kind with
  | .text => [.text i.literal]
  | .link d =>
    [.openTag "a" (idAttr nodeId i.id ++ [("href", d)]) [] false false false,
     .text i.literal,
     .closeTag "a" false false]

/-- Modelled from the spec: default converter for a block node; with
`nodeId` on, an `htmlBlock` is wrapped in an extra `div` to carry the
identifying attribute. -/
def blockTokens (nodeId : Bool) (b : Block) : List Token :=
  match b.kind with
  | .paragraph =>
    .openTag "p" (idAttr nodeId b.id) [] false true false ::
      b.inlines.flatMap (inlineTokens nodeId) ++ [.closeTag "p" true false]
  | .codeBlock =>
    [.openTag "pre" (idAttr nodeId b.id) [] false true false,
     .openTag "code" [] [] false false false,
     .text b.literal,
     .closeTag "code" false false,
     .closeTag "pre" true false]
  | .refDef => []
  | .htmlBlock =>
    if nodeId then
      [.openTag "div" (idAttr nodeId b.id) [] false true false,
       .html b.literal,
       .closeTag "div" true false]
    else [.html b.literal]

/-- Pre-order token stream of the whole tree. -/
def docTokens (nodeId : Bool) (bs : List Block) : List Token :=
  bs.flatMap (blockTokens nodeId)

/-- Modelled from the spec: `render(root, options)` with default
converters. -/
def render (nodeId : Bool) (bs : List Block) : String :=
  renderTokens (docTokens nodeId bs)

/-- The `(tagName, data-nodeid value)` pairs of the open tags that carry
the identifying attribute, in stream order. -/
def taggedIds (ts : List Token) : List (String × String) :=
  ts.filterMap (fun t =>
    match t with
    | .openTag tag attrs _ _ _ _ =>
      match attrs.find? (fun a => a.1 = "data-nodeid") with
      | some a => some (tag, a.2)
      | none => none
    | _ => none)

/-- The expected identifying tags: exactly one per rendered container
node — its top-level tag — with the node's id. -/
def nodeIdTags (bs : List Block) : List (String × String) :=
  bs.flatMap (fun b =>
    match b.kind with
    | .paragraph =>
      ("p", toString b.id) :: b.inlines.flatMap (fun i =>
        match i.kind with
        | .link _ => [("a", toString i.id)]
        | .text => [])
    | .codeBlock => [("pre", toString b.id)]
    | .refDef => []
    | .htmlBlock => [("div", toString b.id)])

/-! ## Helper notions for the proofs -/

/-- Shift a raw block's position up by `dl` lines. -/
def rawShift (dl : Nat) (r : RawBlock) : RawBlock :=
  { r with startLine := r.startLine + dl }

/-- Shift an open parser state's position up by `dl` lines. -/
def stShift (dl : Nat) : PState → PState
  | .top => .top
  | .inPara s acc => .inPara (s + dl) acc
  | .inFence s n acc => .inFence (s + dl) n acc

/-- Position bookkeeping invariant of an open state at line `n`: the
accumulated lines reach exactly up to the previous line. -/
def StWF (n : Nat) : PState → Prop
  | .top => True
  | .inPara s acc => s + acc.length = n ∧ acc ≠ []
  | .inFence s _ acc => s + acc.length = n ∧ acc ≠ []

/-- Start line of the open block of a state (`n` for a closed state). -/
def stLow (n : Nat) : PState → Nat
  | .top => n
  | .inPara s _ => s
  | .inFence s _ _ => s

/-- Is the state inside an open fence? -/
def PState.isFence : PState → Bool
  | .inFence _ _ _ => true
  | _ => false

/-- Is a raw block a reference definition? -/
def RawBlock.isDef (r : RawBlock) : Bool :=
  match r.kind with
  | .refdef _ _ => true
  | _ => false

/-- The document produced by a successful edit (`none` on failure). -/
def editDoc (d : Doc) (s e : Nat × Nat) (t : String) : Option Doc :=
  match editMarkdown d s e t with
  | .ok (d', _) => some d'
  | .error _ => none

/-- The line buffer after a successful edit (`[]` on failure). -/
def editLines (d : Doc) (s e : Nat × Nat) (t : String) : List String :=
  match editMarkdown d s e t with
  | .ok (d', _) => d'.lines
  | .error _ => []

/-- The blocks after a successful edit (`[]` on failure). -/
def editBlocks (d : Doc) (s e : Nat × Nat) (t : String) : List Block :=
  match editMarkdown d s e t with
  | .ok (d', _) => d'.blocks
  | .error _ => []

/-- The edit results of a successful edit (`[]` on failure). -/
def editResults (d : Doc) (s e : Nat × Nat) (t : String) : List EditResult :=
  match editMarkdown d s e t with
  | .ok (_, rs) => rs
  | .error _ => []

/-- Shift a block node's line positions up by `dl`. -/
def blockShiftUp (dl : Nat) (b : Block) : Block :=
  { b with
    sl := b.sl + dl, el := b.el + dl,
    inlines := b.inlines.map (fun i =>
      { i with sl := i.sl + dl, el := i.el + dl }) }

/-- The start line of the reparse window computed by `editMarkdown` for an
edit beginning at `s` (the containing raw block's first line, walked
further left across adjacent paragraphs). -/
def windowStart (d : Doc) (s : Nat × Nat) : Nat :=
  let oldRaws := parseRaw d.opts d.lines
  let ws0 := match rawAt oldRaws s.1 with
    | some r => r.startLine
    | none => s.1
  extendLeft oldRaws (ws0 + 1) ws0

/-- The end line (in old-buffer coordinates) of the reparse window computed
by `editMarkdown` for an edit `s`-`e` with replacement `text`, after
widening across open seams and unterminated fences. -/
def windowEndOld (d : Doc) (s e : Nat × Nat) (text : String) : Nat :=
  let oldRaws := parseRaw d.opts d.lines
  let newLines := spliceLines d.lines s e text
  let we0 := max (match rawAt oldRaws e.1 with
    | some r => r.endLine
    | none => e.1) (windowStart d s)
  extendRight d.opts oldRaws d.lines newLines (windowStart d s)
    (d.lines.length + 1) we0

/-! # Parser lemmas -/

theorem fence_open_not_blank {l : String} (h : isFenceOpen l = true) :
    isBlank l = false := by
  unfold isFenceOpen at h
  rw [decide_eq_true_eq] at h
  unfold fenceLen at h
  unfold isBlank
  cases hd : l.data with
  | nil => rw [hd] at h; simp at h
  | cons c cs =>
    rw [hd] at h
    by_cases hc : c = fenceChar
    · subst hc
      simp only [List.all_cons, Bool.and_eq_false_iff]
      left
      decide
    · rw [List.takeWhile_cons] at h
      simp [hc] at h

theorem goCore_append (opts : ParserOptions) (xs ys : List String) :
    ∀ (n : Nat) (st : PState),
    goCore opts n st (xs ++ ys) =
      ((goCore opts n st xs).1 ++
        (goCore opts (n + xs.length) (goCore opts n st xs).2 ys).1,
       (goCore opts (n + xs.length) (goCore opts n st xs).2 ys).2) := by
  induction xs with
  | nil => intro n st; simp [goCore]
  | cons l ls ih =>
    intro n st
    simp only [List.cons_append, goCore, List.length_cons, List.append_eq]
    rw [ih]
    have harith : n + 1 + ls.length = n + (ls.length + 1) := by omega
    rw [harith, List.append_assoc]

theorem pstep_spans (opts : ParserOptions) (st : PState) (n : Nat)
    (l : String) (h : StWF n st) :
    StWF (n + 1) (pstep opts st n l).2 ∧
    stLow n st ≤ stLow (n + 1) (pstep opts st n l).2 ∧
    (∀ r ∈ (pstep opts st n l).1,
      stLow n st ≤ r.startLine ∧ r.lines ≠ [] ∧ r.endLine + 1 ≤ n + 1 ∧
      r.endLine + 1 ≤ stLow (n + 1) (pstep opts st n l).2 ∧
      (r.kind = RawKind.para → r.endLine + 2 ≤ n + 1)) := by
  cases st with
  | top =>
    simp only [StWF, stLow] at h ⊢
    simp only [pstep]
    split_ifs with h1 h2 h3
    · simp [StWF, stLow]
    · simp [StWF, stLow]
    · cases hr : parseRefDef l with
      | some p =>
        cases p with
        | mk lab dst =>
          simp only [hr, StWF, stLow, List.mem_singleton]
          refine ⟨trivial, by omega, ?_⟩
          rintro r rfl
          simp only [RawBlock.endLine, List.length_singleton]
          refine ⟨le_refl _, by simp, by omega, by omega, ?_⟩
          intro hk
          exact RawKind.noConfusion hk
      | none =>
        simp [hr, StWF, stLow]
    · simp [StWF, stLow]
  | inPara s acc =>
    obtain ⟨hlen, hne⟩ := h
    have hacc : 1 ≤ acc.length := List.length_pos.mpr hne
    simp only [pstep]
    split_ifs with h1 h2
    · simp only [StWF, stLow, List.mem_singleton]
      refine ⟨trivial, by omega, ?_⟩
      rintro r rfl
      simp only [RawBlock.endLine]
      exact ⟨by omega, hne, by omega, by omega, fun _ => by omega⟩
    · simp only [StWF, stLow, List.mem_singleton]
      refine ⟨⟨rfl, by simp⟩, by omega, ?_⟩
      rintro r rfl
      simp only [RawBlock.endLine]
      exact ⟨by omega, hne, by omega, by omega, fun _ => by omega⟩
    · simp only [StWF, stLow, List.length_append, List.length_singleton]
      refine ⟨⟨by omega, by simp⟩, by omega, ?_⟩
      simp
  | inFence s k acc =>
    obtain ⟨hlen, hne⟩ := h
    have hacc : 1 ≤ acc.length := List.length_pos.mpr hne
    simp only [pstep]
    split_ifs with h1
    · simp only [StWF, stLow, List.mem_singleton]
      refine ⟨trivial, by omega, ?_⟩
      rintro r rfl
      simp only [RawBlock.endLine, List.length_append, List.length_singleton]
      refine ⟨by omega, by simp, by omega, by omega, ?_⟩
      intro hk
      exact RawKind.noConfusion hk
    · simp only [StWF, stLow, List.length_append, List.length_singleton]
      refine ⟨⟨by omega, by simp⟩, by omega, ?_⟩
      simp

theorem pstep_len_le (opts : ParserOptions) (st : PState) (n : Nat)
    (l : String) : (pstep opts st n l).1.length ≤ 1 := by
  cases st <;> simp only [pstep] <;> split_ifs <;>
    first
    | simp
    | (cases hr : parseRefDef l with
       | some p => cases p; simp
       | none => simp)

theorem goCore_spans (opts : ParserOptions) (ls : List String) :
    ∀ (n : Nat) (st : PState), StWF n st →
    StWF (n + ls.length) (goCore opts n st ls).2 ∧
    stLow n st ≤ stLow (n + ls.length) (goCore opts n st ls).2 ∧
    (∀ r ∈ (goCore opts n st ls).1,
      stLow n st ≤ r.startLine ∧ r.lines ≠ [] ∧
      r.endLine + 1 ≤ n + ls.length ∧
      r.endLine + 1 ≤ stLow (n + ls.length) (goCore opts n st ls).2 ∧
      (r.kind = RawKind.para → r.endLine + 2 ≤ n + ls.length)) ∧
    List.Pairwise (fun a b => a.endLine < b.startLine)
      (goCore opts n st ls).1 := by
  induction ls with
  | nil =>
    intro n st h
    simp only [goCore, List.length_nil, Nat.add_zero]
    exact ⟨h, le_refl _, by simp, by simp⟩
  | cons l ls ih =>
    intro n st h
    obtain ⟨hw, hmono, hblocks⟩ := pstep_spans opts st n l h
    obtain ⟨ihw, ihmono, ihblocks, ihpw⟩ := ih (n + 1) (pstep opts st n l).2 hw
    have harith : n + 1 + ls.length = n + (ls.length + 1) := by omega
    rw [harith] at ihw ihmono ihblocks
    simp only [goCore, List.length_cons]
    refine ⟨ihw, le_trans hmono ihmono, ?_, ?_⟩
    · intro r hr
      rcases List.mem_append.mp hr with hr1 | hr2
      · obtain ⟨ha, hb, hc, hd, he⟩ := hblocks r hr1
        exact ⟨ha, hb, by omega, le_trans hd ihmono,
          fun hk => by have := he hk; omega⟩
      · obtain ⟨ha, hb, hc, hd, he⟩ := ihblocks r hr2
        exact ⟨le_trans hmono ha, hb, hc, hd, he⟩
    · rw [List.pairwise_append]
      refine ⟨?_, ihpw, ?_⟩
      · have hlen := pstep_len_le opts st n l
        cases hp : (pstep opts st n l).1 with
        | nil => simp
        | cons a t =>
          rw [hp] at hlen
          simp only [List.length_cons] at hlen
          have : t = [] := List.length_eq_zero.mp (by omega)
          subst this
          simp
      · intro a ha b hb
        obtain ⟨_, _, _, hd, _⟩ := hblocks a ha
        obtain ⟨hb1, _, _, _, _⟩ := ihblocks b hb
        omega

theorem pstep_shift (opts : ParserOptions) (st : PState) (n : Nat)
    (l : String) (dl : Nat) :
    pstep opts (stShift dl st) (n + dl) l =
      ((pstep opts st n l).1.map (rawShift dl),
        stShift dl (pstep opts st n l).2) := by
  cases st with
  | top =>
    simp only [pstep, stShift]
    split_ifs with h1 h2 h3
    · simp [stShift]
    · simp [stShift, rawShift]
    · cases hr : parseRefDef l with
      | some p => cases p; simp [stShift, rawShift]
      | none => simp [stShift, rawShift]
    · simp [stShift, rawShift]
  | inPara s acc =>
    simp only [pstep, stShift]
    split_ifs with h1 h2
    · simp [stShift, rawShift]
    · simp [stShift, rawShift]
    · simp [stShift, rawShift]
  | inFence s k acc =>
    simp only [pstep, stShift]
    split_ifs with h1
    · simp [stShift, rawShift]
    · simp [stShift, rawShift]

theorem goCore_shift (opts : ParserOptions) (ls : List String) :
    ∀ (n : Nat) (st : PState) (dl : Nat),
    goCore opts (n + dl) (stShift dl st) ls =
      ((goCore opts n st ls).1.map (rawShift dl),
        stShift dl (goCore opts n st ls).2) := by
  induction ls with
  | nil => intro n st dl; simp [goCore]
  | cons l ls ih =>
    intro n st dl
    simp only [goCore]
    rw [pstep_shift]
    have harith : n + dl + 1 = (n + 1) + dl := by omega
    rw [harith, ih]
    simp

theorem pflush_shift (st : PState) (dl : Nat) :
    pflush (stShift dl st) = (pflush st).map (rawShift dl) := by
  cases st <;> simp [pflush, stShift, rawShift]

theorem parseRawFrom_shift (opts : ParserOptions) (n dl : Nat)
    (ls : List String) :
    parseRawFrom opts (n + dl) ls =
      (parseRawFrom opts n ls).map (rawShift dl) := by
  unfold parseRawFrom
  conv_lhs => rw [show (PState.top : PState) = stShift dl .top from rfl]
  rw [goCore_shift]
  simp [pflush_shift]

theorem seam_split (opts : ParserOptions) (n : Nat) (sW : PState)
    (suffix : List String) (h : seamStateOK sW suffix = true) :
    (goCore opts n sW suffix).1 ++ pflush (goCore opts n sW suffix).2 =
      pflush sW ++
        ((goCore opts n .top suffix).1 ++
          pflush (goCore opts n .top suffix).2) := by
  cases sW with
  | top => simp [pflush]
  | inPara s acc =>
    cases suffix with
    | nil => simp [goCore, pflush]
    | cons l ls =>
      simp only [seamStateOK, List.isEmpty_cons, List.headD_cons,
        Bool.false_or, Bool.or_eq_true] at h
      rcases h with hb | hf
      · simp [goCore, pstep, pflush, hb]
      · have hnb : isBlank l = false := fence_open_not_blank hf
        simp [goCore, pstep, pflush, hnb, hf]
  | inFence s k acc =>
    cases suffix with
    | nil => simp [goCore, pflush]
    | cons l ls =>
      simp [seamStateOK] at h

theorem pstep_no_refdef (opts : ParserOptions) (st : PState) (n : Nat)
    (l : String)
    (h : isRefDefLine l = false ∨ opts.referenceDefinition = false) :
    ∀ r ∈ (pstep opts st n l).1, r.isDef = false := by
  cases st with
  | top =>
    simp only [pstep]
    split_ifs with h1 h2 h3
    · simp
    · simp
    · cases hr : parseRefDef l with
      | some p =>
        rcases h with h | h
        · rw [isRefDefLine, hr] at h; simp at h
        · rw [h] at h3; simp at h3
      | none => simp
    · simp
  | inPara s acc =>
    simp only [pstep]
    split_ifs <;> simp [RawBlock.isDef]
  | inFence s k acc =>
    simp only [pstep]
    split_ifs <;> simp [RawBlock.isDef]

theorem goCore_no_refdef (opts : ParserOptions) (ls : List String)
    (h : (∀ l ∈ ls, isRefDefLine l = false) ∨
      opts.referenceDefinition = false) :
    ∀ (n : Nat) (st : PState), ∀ r ∈ (goCore opts n st ls).1,
      r.isDef = false := by
  induction ls with
  | nil => intro n st r hr; simp [goCore] at hr
  | cons l ls ih =>
    intro n st r hr
    simp only [goCore] at hr
    rcases List.mem_append.mp hr with h1 | h2
    · refine pstep_no_refdef opts st n l ?_ r h1
      rcases h with h | h
      · exact Or.inl (h l (by simp))
      · exact Or.inr h
    · refine ih ?_ (n + 1) (pstep opts st n l).2 r h2
      rcases h with h | h
      · exact Or.inl (fun x hx => h x (by simp [hx]))
      · exact Or.inr h

theorem pflush_no_refdef (st : PState) :
    ∀ r ∈ pflush st, r.isDef = false := by
  cases st <;> simp [pflush, RawBlock.isDef]

theorem refMapOf_append (a b : List RawBlock) :
    refMapOf (a ++ b) = refMapOf a ++ refMapOf b := by
  simp [refMapOf, List.filterMap_append]

theorem refMapOf_shift (dl : Nat) (rs : List RawBlock) :
    refMapOf (rs.map (rawShift dl)) = refMapOf rs := by
  unfold refMapOf
  rw [List.filterMap_map]
  rfl

theorem refMapOf_no_refdef (rs : List RawBlock)
    (h : ∀ r ∈ rs, r.isDef = false) : refMapOf rs = [] := by
  induction rs with
  | nil => simp [refMapOf]
  | cons r rs ih =>
    have hr := h r (by simp)
    have hrest := ih (fun x hx => h x (by simp [hx]))
    cases hk : r.kind with
    | refdef lab d =>
      exfalso
      simp [RawBlock.isDef, hk] at hr
    | para =>
      simp only [refMapOf, List.filterMap_cons, hk] at hrest ⊢
      exact hrest
    | code =>
      simp only [refMapOf, List.filterMap_cons, hk] at hrest ⊢
      exact hrest

theorem takeWhile_append_of {α : Type} (p : α → Bool) (xs ys : List α)
    (hx : ∀ x ∈ xs, p x = true)
    (hy : ys = [] ∨ ∃ a t, ys = a :: t ∧ p a = false) :
    (xs ++ ys).takeWhile p = xs := by
  induction xs with
  | nil =>
    rcases hy with rfl | ⟨a, t, rfl, ha⟩
    · simp
    · simp [List.takeWhile_cons, ha]
  | cons x xs ih =>
    simp only [List.cons_append, List.takeWhile_cons, hx x (by simp)]
    rw [ih (fun a ha => hx a (by simp [ha]))]
    simp

theorem dropWhile_append_of {α : Type} (p : α → Bool) (xs ys : List α)
    (hx : ∀ x ∈ xs, p x = true)
    (hy : ys = [] ∨ ∃ a t, ys = a :: t ∧ p a = false) :
    (xs ++ ys).dropWhile p = ys := by
  induction xs with
  | nil =>
    rcases hy with rfl | ⟨a, t, rfl, ha⟩
    · simp
    · simp [List.dropWhile_cons, ha]
  | cons x xs ih =>
    simp only [List.cons_append, List.dropWhile_cons, hx x (by simp)]
    exact ih (fun a ha => hx a (by simp [ha]))

theorem three_way_split {α : Type} (L : List α) (k m : Nat) (h1 : k ≤ m) :
    L = L.take k ++ (L.take m).drop k ++ L.drop m := by
  nth_rewrite 1 [← List.take_append_drop m L]
  nth_rewrite 1 [← List.take_append_drop k (L.take m)]
  rw [List.take_take, Nat.min_eq_left h1, List.append_assoc]

theorem parseRawFrom_bounds (opts : ParserOptions) (n : Nat)
    (ls : List String) :
    (∀ r ∈ parseRawFrom opts n ls,
      n ≤ r.startLine ∧ r.lines ≠ [] ∧ r.endLine + 1 ≤ n + ls.length ∧
      r.startLine ≤ r.endLine) ∧
    List.Pairwise (fun a b => a.endLine < b.startLine)
      (parseRawFrom opts n ls) := by
  obtain ⟨hw, hmono, hblocks, hpw⟩ := goCore_spans opts ls n .top trivial
  constructor
  · intro r hr
    rcases List.mem_append.mp hr with h1 | h2
    · obtain ⟨ha, hb, hc, _, _⟩ := hblocks r h1
      simp only [stLow] at ha
      have hlen : 1 ≤ r.lines.length := List.length_pos.mpr hb
      refine ⟨ha, hb, hc, ?_⟩
      simp only [RawBlock.endLine]; omega
    · cases hst : (goCore opts n .top ls).2 with
      | top => rw [hst] at h2; simp [pflush] at h2
      | inPara s acc =>
        rw [hst] at h2 hw
        simp only [pflush, List.mem_singleton] at h2
        subst h2
        simp only [StWF] at hw
        obtain ⟨hlen, hne⟩ := hw
        have hmono' := hmono
        rw [hst] at hmono'
        simp only [stLow] at hmono'
        have hl : 1 ≤ acc.length := List.length_pos.mpr hne
        refine ⟨hmono', hne, ?_, ?_⟩
        · show s + acc.length - 1 + 1 ≤ n + ls.length
          omega
        · show s ≤ s + acc.length - 1
          omega
      | inFence s k acc =>
        rw [hst] at h2 hw
        simp only [pflush, List.mem_singleton] at h2
        subst h2
        simp only [StWF] at hw
        obtain ⟨hlen, hne⟩ := hw
        have hmono' := hmono
        rw [hst] at hmono'
        simp only [stLow] at hmono'
        have hl : 1 ≤ acc.length := List.length_pos.mpr hne
        refine ⟨hmono', hne, ?_, ?_⟩
        · show s + acc.length - 1 + 1 ≤ n + ls.length
          omega
        · show s ≤ s + acc.length - 1
          omega
  · unfold parseRawFrom
    rw [List.pairwise_append]
    refine ⟨hpw, ?_, ?_⟩
    · cases hst : (goCore opts n .top ls).2 <;> simp [pflush]
    · intro a ha b hb
      obtain ⟨_, _, _, hd, _⟩ := hblocks a ha
      cases hst : (goCore opts n .top ls).2 with
      | top => rw [hst] at hb; simp [pflush] at hb
      | inPara s acc =>
        rw [hst] at hb hd
        simp only [pflush, List.mem_singleton] at hb
        subst hb
        simp only [stLow] at hd
        show a.endLine < s
        omega
      | inFence s k acc =>
        rw [hst] at hb hd
        simp only [pflush, List.mem_singleton] at hb
        subst hb
        simp only [stLow] at hd
        show a.endLine < s
        omega

/-- The central split: when the parser state is closed entering a window
and the window seam is acceptable, the full parse is the parse of the
three regions. -/
theorem parse_decompose (opts : ParserOptions) (L : List String)
    (ws we : Nat) (h1 : 1 ≤ ws) (h2 : ws ≤ we + 1) (h3 : we ≤ L.length)
    (hpre : (goCore opts 1 .top (L.take (ws - 1))).2 = .top)
    (hseam : seamStateOK (goCore opts ws .top ((L.take we).drop (ws - 1))).2
      (L.drop we) = true) :
    parseRaw opts L =
      (goCore opts 1 .top (L.take (ws - 1))).1 ++
      parseRawFrom opts ws ((L.take we).drop (ws - 1)) ++
      parseRawFrom opts (we + 1) (L.drop we) := by
  have hsplit := three_way_split L (ws - 1) we (by omega)
  have lenA : (L.take (ws - 1)).length = ws - 1 := by
    rw [List.length_take]; omega
  have lenB : ((L.take we).drop (ws - 1)).length = we - (ws - 1) := by
    rw [List.length_drop, List.length_take]; omega
  unfold parseRaw parseRawFrom
  conv_lhs => rw [hsplit]
  rw [List.append_assoc]
  rw [goCore_append, hpre, lenA]
  have hws : 1 + (ws - 1) = ws := by omega
  rw [hws, goCore_append, lenB]
  have hwe : ws + (we - (ws - 1)) = we + 1 := by omega
  rw [hwe]
  have hseam' := seam_split opts (we + 1)
    ((goCore opts ws .top ((L.take we).drop (ws - 1))).2) (L.drop we) hseam
  simp only [List.append_assoc]
  rw [hseam']

theorem parseRawFrom_no_refdef (opts : ParserOptions) (n : Nat)
    (ls : List String)
    (h : (∀ l ∈ ls, isRefDefLine l = false) ∨
      opts.referenceDefinition = false) :
    ∀ r ∈ parseRawFrom opts n ls, r.isDef = false := by
  intro r hr
  rcases List.mem_append.mp hr with h1 | h2
  · exact goCore_no_refdef opts ls h n .top r h1
  · exact pflush_no_refdef _ r h2

theorem takeWhile_map_comm {α β : Type} (f : α → β) (p : β → Bool)
    (q : α → Bool) (h : ∀ a, p (f a) = q a) (xs : List α) :
    (xs.map f).takeWhile p = (xs.takeWhile q).map f := by
  induction xs with
  | nil => simp
  | cons x xs ih =>
    simp only [List.map_cons, List.takeWhile_cons, h x]
    cases hq : q x <;> simp [hq, ih]

theorem dropWhile_map_comm {α β : Type} (f : α → β) (p : β → Bool)
    (q : α → Bool) (h : ∀ a, p (f a) = q a) (xs : List α) :
    (xs.map f).dropWhile p = (xs.dropWhile q).map f := by
  induction xs with
  | nil => simp
  | cons x xs ih =>
    simp only [List.map_cons, List.dropWhile_cons, h x]
    cases hq : q x <;> simp [hq, ih]

/-! # Build lemmas -/

theorem buildBlock_strip (rm : List (String × String)) (n m : Nat)
    (r : RawBlock) :
    ((buildBlock rm n r).1).strip = ((buildBlock rm m r).1).strip := by
  cases hk : r.kind <;>
    simp [buildBlock, hk, Block.strip, inlineOf]

theorem buildBlock_ids (rm : List (String × String)) (n : Nat)
    (r : RawBlock) :
    (buildBlock rm n r).1.id = n ∧ n < (buildBlock rm n r).2 ∧
    (buildBlock rm n r).2 ≤ n + 2 ∧
    ∀ i ∈ (buildBlock rm n r).1.inlines,
      n ≤ i.id ∧ i.id < (buildBlock rm n r).2 := by
  cases hk : r.kind <;>
    simp [buildBlock, hk, inlineOf]

theorem buildBlock_spans (rm : List (String × String)) (n : Nat)
    (r : RawBlock) :
    (buildBlock rm n r).1.sl = r.startLine ∧
    (buildBlock rm n r).1.el = r.endLine ∧
    ∀ i ∈ (buildBlock rm n r).1.inlines,
      i.sl = r.startLine ∧ i.el = r.endLine := by
  cases hk : r.kind <;>
    simp [buildBlock, hk, inlineOf]

theorem buildBlock_shift (rm : List (String × String)) (n dl : Nat)
    (r : RawBlock) (h : r.lines ≠ []) :
    buildBlock rm n (rawShift dl r) =
      (blockShiftUp dl (buildBlock rm n r).1, (buildBlock rm n r).2) := by
  have hlen : 1 ≤ r.lines.length := List.length_pos.mpr h
  cases hk : r.kind <;>
    simp [buildBlock, hk, rawShift, blockShiftUp, inlineOf,
      RawBlock.endLine] <;> omega

theorem buildBlocks_append (rm : List (String × String))
    (r1 r2 : List RawBlock) : ∀ n : Nat,
    buildBlocks rm n (r1 ++ r2) =
      ((buildBlocks rm n r1).1 ++
        (buildBlocks rm (buildBlocks rm n r1).2 r2).1,
        (buildBlocks rm (buildBlocks rm n r1).2 r2).2) := by
  induction r1 with
  | nil => intro n; simp [buildBlocks]
  | cons r rs ih => intro n; simp [buildBlocks, ih]

theorem buildBlocks_strip (rm : List (String × String))
    (rs : List RawBlock) : ∀ n m : Nat,
    stripIds (buildBlocks rm n rs).1 = stripIds (buildBlocks rm m rs).1 := by
  induction rs with
  | nil => intro n m; simp [buildBlocks, stripIds]
  | cons r rs ih =>
    intro n m
    simp only [buildBlocks, stripIds, List.map_cons]
    rw [show (buildBlock rm n r).1.strip = (buildBlock rm m r).1.strip from
      buildBlock_strip rm n m r]
    have := ih (buildBlock rm n r).2 (buildBlock rm m r).2
    simp only [stripIds] at this
    rw [this]

theorem buildBlocks_ids (rm : List (String × String))
    (rs : List RawBlock) : ∀ n : Nat,
    n ≤ (buildBlocks rm n rs).2 ∧
    allIdsLt (buildBlocks rm n rs).1 (buildBlocks rm n rs).2 ∧
    ∀ b ∈ (buildBlocks rm n rs).1, n ≤ b.id := by
  induction rs with
  | nil => intro n; exact ⟨le_refl n, by simp [buildBlocks, allIdsLt], by simp [buildBlocks]⟩
  | cons r rs ih =>
    intro n
    obtain ⟨hid, hlt, hle2, hinl⟩ := buildBlock_ids rm n r
    obtain ⟨ih1, ih2, ih3⟩ := ih (buildBlock rm n r).2
    simp only [buildBlocks]
    refine ⟨by omega, ?_, ?_⟩
    · intro b hb
      rcases List.mem_cons.mp hb with rfl | hb2
      · refine ⟨by omega, ?_⟩
        intro i hi
        have := hinl i hi
        omega
      · exact ih2 b hb2
    · intro b hb
      rcases List.mem_cons.mp hb with rfl | hb2
      · omega
      · have := ih3 b hb2
        omega

theorem buildBlocks_spans (rm : List (String × String))
    (rs : List RawBlock) : ∀ (n : Nat) (b : Block),
    b ∈ (buildBlocks rm n rs).1 →
    ∃ r ∈ rs, b.sl = r.startLine ∧ b.el = r.endLine ∧
      ∀ i ∈ b.inlines, i.sl = r.startLine ∧ i.el = r.endLine := by
  induction rs with
  | nil => intro n b hb; simp [buildBlocks] at hb
  | cons r rs ih =>
    intro n b hb
    simp only [buildBlocks, List.mem_cons] at hb
    rcases hb with rfl | hb2
    · obtain ⟨h1, h2, h3⟩ := buildBlock_spans rm n r
      exact ⟨r, by simp, h1, h2, h3⟩
    · obtain ⟨r', hr', hs⟩ := ih (buildBlock rm n r).2 b hb2
      exact ⟨r', by simp [hr'], hs⟩

theorem buildBlocks_shift (rm : List (String × String)) (dl : Nat)
    (rs : List RawBlock) (h : ∀ r ∈ rs, r.lines ≠ []) : ∀ n : Nat,
    buildBlocks rm n (rs.map (rawShift dl)) =
      ((buildBlocks rm n rs).1.map (blockShiftUp dl),
        (buildBlocks rm n rs).2) := by
  induction rs with
  | nil => intro n; simp [buildBlocks]
  | cons r rs ih =>
    intro n
    simp only [List.map_cons, buildBlocks]
    rw [buildBlock_shift rm n dl r (h r (by simp))]
    rw [ih (fun x hx => h x (by simp [hx]))]

theorem strip_shiftBlock (a b : Nat) (x : Block) :
    (shiftBlock a b x).strip = shiftBlock a b x.strip := by
  simp only [shiftBlock, Block.strip, List.map_map]
  rfl

theorem strip_blockShiftUp (dl : Nat) (x : Block) :
    (blockShiftUp dl x).strip = blockShiftUp dl x.strip := by
  simp only [blockShiftUp, Block.strip, List.map_map]
  rfl

theorem stripIds_append (a b : List Block) :
    stripIds (a ++ b) = stripIds a ++ stripIds b := by
  simp [stripIds]

theorem takeWhile_append_all {α : Type} (p : α → Bool) (xs ys : List α)
    (hx : ∀ x ∈ xs, p x = true) (hy : ∀ y ∈ ys, p y = false) :
    (xs ++ ys).takeWhile p = xs := by
  refine takeWhile_append_of p xs ys hx ?_
  cases ys with
  | nil => exact Or.inl rfl
  | cons a t => exact Or.inr ⟨a, t, rfl, hy a (by simp)⟩

theorem dropWhile_append_all {α : Type} (p : α → Bool) (xs ys : List α)
    (hx : ∀ x ∈ xs, p x = true) (hy : ∀ y ∈ ys, p y = false) :
    (xs ++ ys).dropWhile p = ys := by
  refine dropWhile_append_of p xs ys hx ?_
  cases ys with
  | nil => exact Or.inl rfl
  | cons a t => exact Or.inr ⟨a, t, rfl, hy a (by simp)⟩

theorem buildBlocks_el_lt (rm : List (String × String)) (i : Nat)
    (rs : List RawBlock) (ws : Nat) (h : ∀ r ∈ rs, r.endLine < ws) :
    ∀ b ∈ (buildBlocks rm i rs).1, b.el < ws := by
  intro b hb
  obtain ⟨r, hr, _, he, _⟩ := buildBlocks_spans rm rs i b hb
  rw [he]
  exact h r hr

theorem buildBlocks_el_ge (rm : List (String × String)) (i : Nat)
    (rs : List RawBlock) (ws : Nat)
    (h : ∀ r ∈ rs, ws ≤ r.startLine ∧ r.startLine ≤ r.endLine) :
    ∀ b ∈ (buildBlocks rm i rs).1, ws ≤ b.el := by
  intro b hb
  obtain ⟨r, hr, _, he, _⟩ := buildBlocks_spans rm rs i b hb
  rw [he]
  obtain ⟨h1, h2⟩ := h r hr
  omega

theorem buildBlocks_sl_le (rm : List (String × String)) (i : Nat)
    (rs : List RawBlock) (we : Nat) (h : ∀ r ∈ rs, r.startLine ≤ we) :
    ∀ b ∈ (buildBlocks rm i rs).1, b.sl ≤ we := by
  intro b hb
  obtain ⟨r, hr, hsl, _, _⟩ := buildBlocks_spans rm rs i b hb
  rw [hsl]
  exact h r hr

theorem buildBlocks_sl_gt (rm : List (String × String)) (i : Nat)
    (rs : List RawBlock) (we : Nat) (h : ∀ r ∈ rs, we < r.startLine) :
    ∀ b ∈ (buildBlocks rm i rs).1, we < b.sl := by
  intro b hb
  obtain ⟨r, hr, hsl, _, _⟩ := buildBlocks_spans rm rs i b hb
  rw [hsl]
  exact h r hr

theorem shiftBlock_eq_up (weOld wn dl : Nat) (hd : wn = weOld + dl)
    (x : Block) (hsl : weOld + 1 ≤ x.sl) (hel : weOld + 1 ≤ x.el)
    (hinl : ∀ i ∈ x.inlines, weOld + 1 ≤ i.sl ∧ weOld + 1 ≤ i.el) :
    shiftBlock weOld wn x = blockShiftUp dl x := by
  have e1 : wn + (x.sl - weOld) = x.sl + dl := by omega
  have e2 : wn + (x.el - weOld) = x.el + dl := by omega
  simp only [shiftBlock, blockShiftUp, e1, e2]
  congr 1
  apply List.map_congr_left
  intro i hi
  obtain ⟨h1, h2⟩ := hinl i hi
  have e3 : wn + (i.sl - weOld) = i.sl + dl := by omega
  have e4 : wn + (i.el - weOld) = i.el + dl := by omega
  simp [e3, e4]

theorem shiftBlock_up_cancel (weOld wn dl : Nat) (hd : weOld = wn + dl)
    (x : Block) (hsl : wn + 1 ≤ x.sl) (hel : wn + 1 ≤ x.el)
    (hinl : ∀ i ∈ x.inlines, wn + 1 ≤ i.sl ∧ wn + 1 ≤ i.el) :
    shiftBlock weOld wn (blockShiftUp dl x) = x := by
  have e1 : wn + (x.sl + dl - weOld) = x.sl := by omega
  have e2 : wn + (x.el + dl - weOld) = x.el := by omega
  simp only [shiftBlock, blockShiftUp, List.map_map, e1, e2]
  have hmap : x.inlines.map
      ((fun i => { i with
          sl := wn + (i.sl - weOld), el := wn + (i.el - weOld) }) ∘
        (fun i => { i with sl := i.sl + dl, el := i.el + dl })) =
      x.inlines := by
    conv_rhs => rw [show x.inlines = x.inlines.map id from
      (List.map_id _).symm]
    apply List.map_congr_left
    intro i hi
    obtain ⟨h1, h2⟩ := hinl i hi
    have e3 : wn + (i.sl + dl - weOld) = i.sl := by omega
    have e4 : wn + (i.el + dl - weOld) = i.el := by omega
    simp [Function.comp, e3, e4]
  rw [hmap]

theorem strip_spans (b : Block) :
    b.strip.sl = b.sl ∧ b.strip.el = b.el ∧
    ∀ i ∈ b.strip.inlines, ∃ j ∈ b.inlines, i.sl = j.sl ∧ i.el = j.el := by
  refine ⟨rfl, rfl, ?_⟩
  intro i hi
  simp only [Block.strip, List.mem_map] at hi
  obtain ⟨j, hj, rfl⟩ := hi
  exact ⟨j, hj, rfl, rfl⟩

/-- The heart of the incremental reparser's correctness: under the seam
guard, splicing the freshly reparsed window between the untouched
neighbours yields (modulo ids) the fresh parse of the new buffer. -/
theorem guarded_strip (opts : ParserOptions) (oL nL : List String)
    (oldBlocks : List Block) (nid0 ws weOld wn : Nat)
    (hwn : wn = weOld + nL.length - oL.length)
    (hG : guardOK opts oL nL ws weOld = true)
    (hs : stripIds oldBlocks = stripIds (canonBlocks opts oL)) :
    stripIds
      (oldBlocks.takeWhile (fun b => decide (b.el < ws)) ++
        (buildBlocks (refMapOf (parseRaw opts nL)) nid0
          (parseRawFrom opts ws (windowNewLines nL ws wn))).1 ++
        (oldBlocks.dropWhile (fun b => decide (b.sl ≤ weOld))).map
          (shiftBlock weOld wn)) =
      stripIds (canonBlocks opts nL) := by
  simp only [guardOK] at hG
  rw [← hwn] at hG
  simp only [Bool.and_eq_true, decide_eq_true_eq] at hG
  obtain ⟨⟨⟨⟨⟨⟨⟨⟨⟨⟨h1, h2⟩, h3⟩, h4⟩, h5⟩, h6⟩, h7⟩, h8⟩, h9⟩, h10⟩, h11⟩ := hG
  -- unfolded window line lists
  have hWNdef : windowNewLines nL ws wn = (nL.take wn).drop (ws - 1) := rfl
  have hWOdef : windowOldLines oL ws weOld =
    (oL.take weOld).drop (ws - 1) := rfl
  -- the decompositions of the two parses
  have hPreO : (goCore opts 1 .top (oL.take (ws - 1))).2 = .top := by
    rw [h6]; exact h8
  have hdecN := parse_decompose opts nL ws wn h1 h4 h5 h8
    (by rw [← hWNdef]; exact h9)
  have hdecO := parse_decompose opts oL ws weOld h1 h2 h3 hPreO
    (by rw [← hWOdef]; exact h10)
  rw [← hWNdef] at hdecN
  rw [← hWOdef, h6] at hdecO
  -- raw-level bounds for the three regions
  have hPspans := goCore_spans opts (nL.take (ws - 1)) 1 .top trivial
  have hPbound : ∀ r ∈ (goCore opts 1 .top (nL.take (ws - 1))).1,
      r.endLine < ws := by
    intro r hr
    obtain ⟨_, _, hblocks, _⟩ := hPspans
    obtain ⟨_, _, hc, _, _⟩ := hblocks r hr
    have hlen : (nL.take (ws - 1)).length = ws - 1 := by
      rw [List.length_take]; omega
    omega
  have hWOb := (parseRawFrom_bounds opts ws (windowOldLines oL ws weOld)).1
  have hWOlen : (windowOldLines oL ws weOld).length = weOld - (ws - 1) := by
    rw [hWOdef, List.length_drop, List.length_take]; omega
  have hWObound : ∀ r ∈ parseRawFrom opts ws (windowOldLines oL ws weOld),
      ws ≤ r.startLine ∧ r.startLine ≤ r.endLine ∧ r.endLine ≤ weOld := by
    intro r hr
    obtain ⟨ha, _, hc, hd⟩ := hWOb r hr
    rw [hWOlen] at hc
    exact ⟨ha, hd, by omega⟩
  have hWNb := (parseRawFrom_bounds opts ws (windowNewLines nL ws wn)).1
  have hWNlen : (windowNewLines nL ws wn).length = wn - (ws - 1) := by
    rw [hWNdef, List.length_drop, List.length_take]; omega
  have hWNbound : ∀ r ∈ parseRawFrom opts ws (windowNewLines nL ws wn),
      ws ≤ r.startLine ∧ r.startLine ≤ r.endLine ∧ r.endLine ≤ wn := by
    intro r hr
    obtain ⟨ha, _, hc, hd⟩ := hWNb r hr
    rw [hWNlen] at hc
    exact ⟨ha, hd, by omega⟩
  have hSOb := (parseRawFrom_bounds opts (weOld + 1) (oL.drop weOld)).1
  have hSNb := (parseRawFrom_bounds opts (wn + 1) (nL.drop wn)).1
  -- the suffix parses are relocations of one another
  have hSrel :
      (weOld ≤ wn ∧ parseRawFrom opts (wn + 1) (nL.drop wn) =
        (parseRawFrom opts (weOld + 1) (oL.drop weOld)).map
          (rawShift (wn - weOld))) ∨
      (wn < weOld ∧ parseRawFrom opts (weOld + 1) (oL.drop weOld) =
        (parseRawFrom opts (wn + 1) (nL.drop wn)).map
          (rawShift (weOld - wn))) := by
    rcases le_or_lt weOld wn with hle | hlt
    · left
      refine ⟨hle, ?_⟩
      rw [← h7]
      rw [show wn + 1 = (weOld + 1) + (wn - weOld) from by omega]
      exact parseRawFrom_shift opts (weOld + 1) (wn - weOld) (oL.drop weOld)
    · right
      refine ⟨hlt, ?_⟩
      rw [h7]
      rw [show weOld + 1 = (wn + 1) + (weOld - wn) from by omega]
      exact parseRawFrom_shift opts (wn + 1) (weOld - wn) (nL.drop wn)
  -- the reference maps agree
  have hWN0 : refMapOf (parseRawFrom opts ws (windowNewLines nL ws wn)) =
      [] := by
    apply refMapOf_no_refdef
    apply parseRawFrom_no_refdef
    cases hrd : opts.referenceDefinition with
    | false => exact Or.inr rfl
    | true =>
      left
      rw [hrd] at h11
      simp only [Bool.not_true, Bool.false_or, Bool.and_eq_true,
        List.all_eq_true, Bool.not_eq_true'] at h11
      exact fun l hl => h11.2 l hl
  have hWO0 : refMapOf (parseRawFrom opts ws (windowOldLines oL ws weOld)) =
      [] := by
    apply refMapOf_no_refdef
    apply parseRawFrom_no_refdef
    cases hrd : opts.referenceDefinition with
    | false => exact Or.inr rfl
    | true =>
      left
      rw [hrd] at h11
      simp only [Bool.not_true, Bool.false_or, Bool.and_eq_true,
        List.all_eq_true, Bool.not_eq_true'] at h11
      exact fun l hl => h11.1 l hl
  have hSmap : refMapOf (parseRawFrom opts (wn + 1) (nL.drop wn)) =
      refMapOf (parseRawFrom opts (weOld + 1) (oL.drop weOld)) := by
    rcases hSrel with ⟨_, hEq⟩ | ⟨_, hEq⟩
    · rw [hEq, refMapOf_shift]
    · rw [hEq, refMapOf_shift]
  have hrm : refMapOf (parseRaw opts nL) = refMapOf (parseRaw opts oL) := by
    rw [hdecN, hdecO, refMapOf_append, refMapOf_append, refMapOf_append,
      refMapOf_append, hWN0, hWO0, hSmap]
  -- abbreviations for the built regions
  set rm := refMapOf (parseRaw opts nL) with hrmdef
  set P := (goCore opts 1 .top (nL.take (ws - 1))).1 with hPdef
  set WrawN := parseRawFrom opts ws (windowNewLines nL ws wn) with hWrawN
  set WrawO := parseRawFrom opts ws (windowOldLines oL ws weOld) with hWrawO
  set SrawN := parseRawFrom opts (wn + 1) (nL.drop wn) with hSrawN
  set SrawO := parseRawFrom opts (weOld + 1) (oL.drop weOld) with hSrawO
  -- canonical new blocks, decomposed
  have hcanonN : stripIds (canonBlocks opts nL) =
      stripIds (buildBlocks rm 1 P).1 ++
      stripIds (buildBlocks rm 1 WrawN).1 ++
      stripIds (buildBlocks rm 1 SrawN).1 := by
    simp only [canonBlocks, canonFrom, ← hrmdef]
    rw [hdecN, buildBlocks_append, buildBlocks_append]
    rw [stripIds_append, stripIds_append]
    rw [buildBlocks_strip rm WrawN _ 1, buildBlocks_strip rm SrawN _ 1]
  have hcanonO : stripIds (canonBlocks opts oL) =
      stripIds (buildBlocks rm 1 P).1 ++
      stripIds (buildBlocks rm 1 WrawO).1 ++
      stripIds (buildBlocks rm 1 SrawO).1 := by
    simp only [canonBlocks, canonFrom]
    rw [show refMapOf (parseRaw opts oL) = rm from hrm.symm]
    rw [hdecO, buildBlocks_append, buildBlocks_append]
    rw [stripIds_append, stripIds_append]
    rw [buildBlocks_strip rm WrawO _ 1, buildBlocks_strip rm SrawO _ 1]
  -- region span facts, transported through strip
  have hPel : ∀ x ∈ stripIds (buildBlocks rm 1 P).1, decide (x.el < ws) =
      true := by
    intro x hx
    simp only [stripIds, List.mem_map] at hx
    obtain ⟨b, hb, rfl⟩ := hx
    have := buildBlocks_el_lt rm 1 P ws hPbound b hb
    simp [Block.strip, this]
  have hWOel : ∀ x ∈ stripIds (buildBlocks rm 1 WrawO).1,
      decide (x.el < ws) = false := by
    intro x hx
    simp only [stripIds, List.mem_map] at hx
    obtain ⟨b, hb, rfl⟩ := hx
    have := buildBlocks_el_ge rm 1 WrawO ws
      (fun r hr => ⟨(hWObound r hr).1, (hWObound r hr).2.1⟩) b hb
    simp [Block.strip]
    omega
  have hSOel : ∀ x ∈ stripIds (buildBlocks rm 1 SrawO).1,
      decide (x.el < ws) = false := by
    intro x hx
    simp only [stripIds, List.mem_map] at hx
    obtain ⟨b, hb, rfl⟩ := hx
    have := buildBlocks_el_ge rm 1 SrawO (weOld + 1)
      (fun r hr => ⟨(hSOb r hr).1, (hSOb r hr).2.2.2⟩) b hb
    simp [Block.strip]
    omega
  have hPsl : ∀ x ∈ stripIds (buildBlocks rm 1 P).1,
      decide (x.sl ≤ weOld) = true := by
    intro x hx
    simp only [stripIds, List.mem_map] at hx
    obtain ⟨b, hb, rfl⟩ := hx
    obtain ⟨r, hr, hsl, hel, _⟩ := buildBlocks_spans rm P 1 b hb
    have hbd := hPbound r hr
    obtain ⟨_, _, hblk, _⟩ := hPspans
    obtain ⟨_, hne, _, _, _⟩ := hblk r hr
    have hlr : 1 ≤ r.lines.length := List.length_pos.mpr hne
    have hse : r.startLine ≤ r.endLine := by
      show r.startLine ≤ r.startLine + r.lines.length - 1
      omega
    simp [Block.strip]
    omega
  have hWOsl : ∀ x ∈ stripIds (buildBlocks rm 1 WrawO).1,
      decide (x.sl ≤ weOld) = true := by
    intro x hx
    simp only [stripIds, List.mem_map] at hx
    obtain ⟨b, hb, rfl⟩ := hx
    obtain ⟨r, hr, hsl, _, _⟩ := buildBlocks_spans rm WrawO 1 b hb
    obtain ⟨_, hb2, hb3⟩ := hWObound r hr
    simp [Block.strip]
    omega
  have hSOsl : ∀ x ∈ stripIds (buildBlocks rm 1 SrawO).1,
      decide (x.sl ≤ weOld) = false := by
    intro x hx
    simp only [stripIds, List.mem_map] at hx
    obtain ⟨b, hb, rfl⟩ := hx
    obtain ⟨r, hr, hsl, _, _⟩ := buildBlocks_spans rm SrawO 1 b hb
    have := (hSOb r hr).1
    simp [Block.strip]
    omega
  -- the kept head of the old tree is the canonical head region
  have hkept1 : stripIds (oldBlocks.takeWhile (fun b => decide (b.el < ws)))
      = stripIds (buildBlocks rm 1 P).1 := by
    have hcomm := takeWhile_map_comm Block.strip
      (fun b => decide (b.el < ws)) (fun b => decide (b.el < ws))
      (fun a => rfl) oldBlocks
    have : stripIds (oldBlocks.takeWhile (fun b => decide (b.el < ws))) =
        (stripIds oldBlocks).takeWhile (fun b => decide (b.el < ws)) := by
      simp only [stripIds]
      rw [hcomm]
    rw [this, hs, hcanonO, List.append_assoc]
    apply takeWhile_append_all _ _ _ hPel
    intro y hy
    rcases List.mem_append.mp hy with hy1 | hy2
    · exact hWOel y hy1
    · exact hSOel y hy2
  -- the kept tail of the old tree is the canonical new tail region
  have hkept2 : stripIds ((oldBlocks.dropWhile
      (fun b => decide (b.sl ≤ weOld))).map (shiftBlock weOld wn)) =
      stripIds (buildBlocks rm 1 SrawN).1 := by
    have hcomm := dropWhile_map_comm Block.strip
      (fun b => decide (b.sl ≤ weOld)) (fun b => decide (b.sl ≤ weOld))
      (fun a => rfl) oldBlocks
    have hstep1 : stripIds ((oldBlocks.dropWhile
        (fun b => decide (b.sl ≤ weOld))).map (shiftBlock weOld wn)) =
        ((stripIds oldBlocks).dropWhile
          (fun b => decide (b.sl ≤ weOld))).map (shiftBlock weOld wn) := by
      simp only [stripIds]
      rw [hcomm]
      simp only [List.map_map]
      congr 1
      funext x
      exact strip_shiftBlock weOld wn x
    have hdrop : (stripIds oldBlocks).dropWhile
        (fun b => decide (b.sl ≤ weOld)) =
        stripIds (buildBlocks rm 1 SrawO).1 := by
      rw [hs, hcanonO]
      apply dropWhile_append_all _ _ _ ?hall hSOsl
      case hall =>
        intro y hy
        rcases List.mem_append.mp hy with hy1 | hy2
        · exact hPsl y hy1
        · exact hWOsl y hy2
    rw [hstep1, hdrop]
    -- relate the shifted old tail to the fresh-parse new tail
    rcases hSrel with ⟨hle, hEq⟩ | ⟨hlt, hEq⟩
    · have hlines : ∀ r ∈ SrawO, r.lines ≠ [] := fun r hr => (hSOb r hr).2.1
      rw [hEq, buildBlocks_shift rm (wn - weOld) SrawO hlines 1]
      have hswap : stripIds ((buildBlocks rm 1 SrawO).1.map
          (blockShiftUp (wn - weOld))) =
          (stripIds (buildBlocks rm 1 SrawO).1).map
            (blockShiftUp (wn - weOld)) := by
        simp only [stripIds, List.map_map]
        congr 1
        funext x
        exact strip_blockShiftUp (wn - weOld) x
      rw [hswap]
      apply List.map_congr_left
      intro x hx
      simp only [stripIds, List.mem_map] at hx
      obtain ⟨b, hb, rfl⟩ := hx
      obtain ⟨r, hr, hsl, hel, hinl⟩ := buildBlocks_spans rm SrawO 1 b hb
      obtain ⟨hr1, hr2, hr3, hr4⟩ := hSOb r hr
      refine shiftBlock_eq_up weOld wn (wn - weOld) (by omega) b.strip
        ?_ ?_ ?_
      · show weOld + 1 ≤ b.sl
        omega
      · show weOld + 1 ≤ b.el
        omega
      · intro i hi
        obtain ⟨_, _, htr⟩ := strip_spans b
        obtain ⟨j, hj, hj1, hj2⟩ := htr i hi
        obtain ⟨hj3, hj4⟩ := hinl j hj
        omega
    · have hlines : ∀ r ∈ SrawN, r.lines ≠ [] := fun r hr => (hSNb r hr).2.1
      rw [hEq, buildBlocks_shift rm (weOld - wn) SrawN hlines 1]
      have hswap : stripIds ((buildBlocks rm 1 SrawN).1.map
          (blockShiftUp (weOld - wn))) =
          (stripIds (buildBlocks rm 1 SrawN).1).map
            (blockShiftUp (weOld - wn)) := by
        simp only [stripIds, List.map_map]
        congr 1
        funext x
        exact strip_blockShiftUp (weOld - wn) x
      rw [hswap, List.map_map]
      conv_rhs => rw [show stripIds (buildBlocks rm 1 SrawN).1 =
        (stripIds (buildBlocks rm 1 SrawN).1).map id from
        (List.map_id _).symm]
      apply List.map_congr_left
      intro x hx
      simp only [stripIds, List.mem_map] at hx
      obtain ⟨b, hb, rfl⟩ := hx
      obtain ⟨r, hr, hsl, hel, hinl⟩ := buildBlocks_spans rm SrawN 1 b hb
      obtain ⟨hr1, hr2, hr3, hr4⟩ := hSNb r hr
      show shiftBlock weOld wn (blockShiftUp (weOld - wn) b.strip) = b.strip
      refine shiftBlock_up_cancel weOld wn (weOld - wn) (by omega) b.strip
        ?_ ?_ ?_
      · show wn + 1 ≤ b.sl
        omega
      · show wn + 1 ≤ b.el
        omega
      · intro i hi
        obtain ⟨_, _, htr⟩ := strip_spans b
        obtain ⟨j, hj, hj1, hj2⟩ := htr i hi
        obtain ⟨hj3, hj4⟩ := hinl j hj
        omega
  -- assemble
  have hfresh : stripIds (buildBlocks rm nid0 WrawN).1 =
      stripIds (buildBlocks rm 1 WrawN).1 :=
    buildBlocks_strip rm WrawN nid0 1
  rw [stripIds_append, stripIds_append, hkept1, hfresh, hkept2, hcanonN]

/-- Ids of a spliced tree: kept nodes keep their (bounded) ids, fresh nodes
stay below the advanced counter. -/
theorem spliced_ids (oldBlocks : List Block) (nid0 : Nat)
    (rm : List (String × String)) (wraws : List RawBlock)
    (ws weOld wn : Nat) (hids : allIdsLt oldBlocks nid0) :
    allIdsLt
      (oldBlocks.takeWhile (fun b => decide (b.el < ws)) ++
        (buildBlocks rm nid0 wraws).1 ++
        (oldBlocks.dropWhile (fun b => decide (b.sl ≤ weOld))).map
          (shiftBlock weOld wn))
      (buildBlocks rm nid0 wraws).2 ∧
    nid0 ≤ (buildBlocks rm nid0 wraws).2 := by
  obtain ⟨hle, hall, _⟩ := buildBlocks_ids rm wraws nid0
  refine ⟨?_, hle⟩
  intro b hb
  rcases List.mem_append.mp hb with hb1 | hb2
  · rcases List.mem_append.mp hb1 with hb3 | hb4
    · have hmem : b ∈ oldBlocks := (List.takeWhile_sublist _).subset hb3
      obtain ⟨hx1, hx2⟩ := hids b hmem
      exact ⟨by omega, fun i hi => by have := hx2 i hi; omega⟩
    · exact hall b hb4
  · simp only [List.mem_map] at hb2
    obtain ⟨x, hx, rfl⟩ := hb2
    have hmem : x ∈ oldBlocks := (List.dropWhile_sublist _).subset hx
    obtain ⟨hx1, hx2⟩ := hids x hmem
    refine ⟨?_, ?_⟩
    · show x.id < _
      omega
    · intro i hi
      simp only [shiftBlock, List.mem_map] at hi
      obtain ⟨j, hj, rfl⟩ := hi
      have := hx2 j hj
      show j.id < _
      omega

/-- Every successful `editMarkdown` preserves the document invariant. -/
theorem editMarkdown_synced (d : Doc) (s e : Nat × Nat) (t : String)
    (d' : Doc) (rs : List EditResult) (hd : d.Synced)
    (h : editMarkdown d s e t = .ok (d', rs)) : d'.Synced := by
  obtain ⟨hstrip, hids⟩ := hd
  simp only [editMarkdown] at h
  split at h
  · exact Except.noConfusion h
  · split at h
    · exact Except.noConfusion h
    · split at h
      · rename_i hguard
        simp only [Except.ok.injEq, Prod.mk.injEq] at h
        obtain ⟨hdoc, -⟩ := h
        subst hdoc
        constructor
        · exact guarded_strip d.opts d.lines (spliceLines d.lines s e t)
            d.blocks d.nextId _ _ _ rfl hguard hstrip
        · exact (spliced_ids d.blocks d.nextId _ _ _ _ _ hids).1
      · simp only [Except.ok.injEq, Prod.mk.injEq] at h
        obtain ⟨hdoc, -⟩ := h
        subst hdoc
        constructor
        · show stripIds
            (canonFrom d.opts d.nextId (spliceLines d.lines s e t)).1 = _
          simp only [canonFrom, canonBlocks]
          exact buildBlocks_strip _ _ d.nextId 1
        · show allIdsLt (canonFrom d.opts d.nextId
            (spliceLines d.lines s e t)).1 _
          exact (buildBlocks_ids _ _ d.nextId).2.1

/-- A freshly constructed document satisfies the invariant. -/
theorem fromLines_synced (opts : ParserOptions) (ls : List String) :
    (Doc.fromLines opts ls).Synced := by
  constructor
  · show stripIds (canonFrom opts 1 ls).1 = stripIds (canonBlocks opts ls)
    rfl
  · show allIdsLt (canonFrom opts 1 ls).1 (canonFrom opts 1 ls).2
    exact (buildBlocks_ids _ _ 1).2.1

/-- A sequence of successful edits preserves the invariant. -/
theorem applyEdits_synced (edits : List ((Nat × Nat) × (Nat × Nat) × String))
    : ∀ d d' : Doc, d.Synced → applyEdits d edits = some d' → d'.Synced := by
  induction edits with
  | nil =>
    intro d d' hd h
    simp only [applyEdits, Option.some.injEq] at h
    subst h
    exact hd
  | cons ed rest ih =>
    intro d d' hd h
    obtain ⟨s, e, t⟩ := ed
    simp only [applyEdits] at h
    cases heq : editMarkdown d s e t with
    | ok p => exact ih _ _ (editMarkdown_synced d s e t p.1 p.2 hd
        (by rw [heq])) (by rw [heq] at h; exact h)
    | error err => rw [heq] at h; exact Option.noConfusion h

/-! # Claim theorems -/

/-- C1: for every initial markdown text and every sequence of
`editMarkdown` calls whose cumulative effect produces some final text, the
document's resulting AST (with node ids erased) equals the AST of a single
fresh parse of that final text. -/
theorem edit_sequence_equals_fresh_parse (text : String)
    (opts : ParserOptions)
    (edits : List ((Nat × Nat) × (Nat × Nat) × String)) (d' : Doc)
    (h : applyEdits (ToastMark.new text opts) edits = some d') :
    stripIds d'.blocks = stripIds (canonBlocks d'.opts d'.lines) :=
  (applyEdits_synced edits _ d'
    (fromLines_synced opts (toLines text)) h).1

/-- Witness for C1 at a concrete two-edit sequence. -/
theorem edit_sequence_equals_fresh_parse_witness :
    (applyEdits (ToastMark.new "Hello\n\nMy" {})
      [((1, 6), (1, 6), ","), ((3, 1), (3, 3), "You")]).elim False
      (fun dd =>
        stripIds dd.blocks = stripIds (canonBlocks dd.opts dd.lines)) := by
  cases happ : applyEdits (ToastMark.new "Hello\n\nMy" {})
      [((1, 6), (1, 6), ","), ((3, 1), (3, 3), "You")] with
  | none => exact absurd happ (by decide)
  | some dd =>
    simp only [Option.elim]
    exact edit_sequence_equals_fresh_parse _ _ _ _ happ

/-- C7: `editMarkdown` fails with OutOfRange exactly when a position
exceeds the line buffer's bounds, with InvalidEdit when the positions are
in range but the end precedes the start, and succeeds on every in-range
ordered pair of positions (reparsing is total over arbitrary content). -/
theorem editMarkdown_error_taxonomy (d : Doc) (s e : Nat × Nat)
    (t : String) :
    ((posValid d.lines s && posValid d.lines e) = false →
      editMarkdown d s e t = .error .outOfRange) ∧
    ((posValid d.lines s && posValid d.lines e) = true →
      posLe s e = false → editMarkdown d s e t = .error .invalidEdit) ∧
    ((posValid d.lines s && posValid d.lines e) = true →
      posLe s e = true →
      ∃ d' rs, editMarkdown d s e t = .ok (d', rs)) := by
  refine ⟨?_, ?_, ?_⟩
  · intro h1
    simp only [editMarkdown, h1]
    rfl
  · intro h1 h2
    simp only [editMarkdown, h1, h2]
    rfl
  · intro h1 h2
    simp only [editMarkdown, h1, h2, Bool.not_true, Bool.false_eq_true,
      if_false]
    split
    · exact ⟨_, _, rfl⟩
    · exact ⟨_, _, rfl⟩

/-- Witness for C7 at concrete inputs covering all three conditions. -/
theorem editMarkdown_error_taxonomy_witness :
    editMarkdown (ToastMark.new "Hello" {}) (2, 1) (2, 2) "x" =
      .error .outOfRange ∧
    editMarkdown (ToastMark.new "Hello" {}) (1, 4) (1, 2) "x" =
      .error .invalidEdit ∧
    ∃ d' rs, editMarkdown (ToastMark.new "Hello" {}) (1, 2) (1, 4) "x" =
      .ok (d', rs) :=
  ⟨(editMarkdown_error_taxonomy (ToastMark.new "Hello" {}) (2, 1) (2, 2)
      "x").1 (by decide),
   (editMarkdown_error_taxonomy (ToastMark.new "Hello" {}) (1, 4) (1, 2)
      "x").2.1 (by decide) (by decide),
   (editMarkdown_error_taxonomy (ToastMark.new "Hello" {}) (1, 2) (1, 4)
      "x").2.2 (by decide) (by decide)⟩

/-- C10: the nodes of every returned `EditResult` are the live spliced-in
consecutive children of the document root occupying the replaced region at
the time of return. -/
theorem editResult_nodes_are_live_children (d : Doc) (s e : Nat × Nat)
    (t : String) (d' : Doc) (rs : List EditResult)
    (h : editMarkdown d s e t = .ok (d', rs)) :
    ∃ res, rs = [res] ∧
      ∃ front back, d'.blocks = front ++ res.nodes ++ back := by
  simp only [editMarkdown] at h
  split at h
  · exact Except.noConfusion h
  · split at h
    · exact Except.noConfusion h
    · split at h
      · simp only [Except.ok.injEq, Prod.mk.injEq] at h
        obtain ⟨hdoc, hrs⟩ := h
        subst hdoc
        subst hrs
        exact ⟨_, rfl, _, _, rfl⟩
      · simp only [Except.ok.injEq, Prod.mk.injEq] at h
        obtain ⟨hdoc, hrs⟩ := h
        subst hdoc
        subst hrs
        exact ⟨_, rfl, [], [], by simp⟩

/-- Witness for C10 at a concrete edit. -/
theorem editResult_nodes_are_live_children_witness :
    ∃ (d' : Doc) (rs : List EditResult) (res : EditResult)
      (front back : List Block),
      editMarkdown (ToastMark.new "Hello World" {}) (1, 6) (1, 6) "," =
        .ok (d', rs) ∧ rs = [res] ∧
      d'.blocks = front ++ res.nodes ++ back := by
  rcases h : editMarkdown (ToastMark.new "Hello World" {}) (1, 6) (1, 6) ","
    with err | p
  · exfalso
    have hok : (editMarkdown (ToastMark.new "Hello World" {}) (1, 6) (1, 6)
        ",").isOk = true := by decide
    rw [h] at hok
    simp [Except.isOk, Except.toBool] at hok
  · obtain ⟨d2, rs2⟩ := p
    obtain ⟨res, hres, front, back, hblocks⟩ :=
      editResult_nodes_are_live_children _ _ _ _ d2 rs2 h
    exact ⟨d2, rs2, res, front, back, rfl, hres, hblocks⟩

/-- C3 counterexample: on `"Hello World"`, `editMarkdown([1,6],[1,6],',')`
produces the single line `"Hello, World"` but the paragraph node does NOT
retain its id — the old paragraph has id 1, the new one id 3 (window nodes
are freshly created). -/
theorem hello_world_insert_id_changes :
    editLines (ToastMark.new "Hello World" {}) (1, 6) (1, 6) "," =
      ["Hello, World"] ∧
    (ToastMark.new "Hello World" {}).blocks.map (fun b => b.id) = [1] ∧
    (editBlocks (ToastMark.new "Hello World" {}) (1, 6) (1, 6) ",").map
      (fun b => b.id) = [3] := by
  decide

/-- C3 (amended): the edit produces the single buffer line
`"Hello, World"`; the paragraph node is freshly created (its id differs
from every id in the old tree) and carries the updated literal. -/
theorem hello_world_insert_fresh_paragraph :
    editLines (ToastMark.new "Hello World" {}) (1, 6) (1, 6) "," =
      ["Hello, World"] ∧
    (editBlocks (ToastMark.new "Hello World" {}) (1, 6) (1, 6) ",").map
      (fun b => (b.kind, b.literal)) = [(BKind.paragraph, "Hello, World")] ∧
    (∀ b ∈ editBlocks (ToastMark.new "Hello World" {}) (1, 6) (1, 6) ",",
      ∀ b0 ∈ (ToastMark.new "Hello World" {}).blocks, b.id ≠ b0.id) ∧
    (editBlocks (ToastMark.new "Hello World" {}) (1, 6) (1, 6) ",").map
      (fun b => b.inlines.map (fun i => i.literal)) = [["Hello, World"]] := by
  decide

theorem buildBlocks_pairwise (rm : List (String × String))
    (raws : List RawBlock)
    (h : List.Pairwise (fun a b => a.endLine < b.startLine) raws) :
    ∀ n : Nat, List.Pairwise (fun a b => a.el < b.sl)
      (buildBlocks rm n raws).1 := by
  induction raws with
  | nil => intro n; simp [buildBlocks]
  | cons r rs ih =>
    intro n
    simp only [List.pairwise_cons] at h
    obtain ⟨hr, hrs⟩ := h
    simp only [buildBlocks, List.pairwise_cons]
    refine ⟨?_, ih hrs _⟩
    intro b hb
    obtain ⟨r', hr', hsl, _, _⟩ := buildBlocks_spans rm rs _ b hb
    obtain ⟨_, hel, _⟩ := buildBlock_spans rm n r
    rw [hel, hsl]
    exact hr r' hr'

theorem containsPos_line (b : Block) (p : Nat × Nat)
    (h : b.containsPos p = true) : b.sl ≤ p.1 ∧ p.1 ≤ b.el := by
  simp only [Block.containsPos, posInSpan, Bool.and_eq_true,
    Bool.or_eq_true, decide_eq_true_eq] at h
  omega

theorem pairwise_contains_unique (bs : List Block) (p : Nat × Nat)
    (hpw : List.Pairwise (fun a b => a.el < b.sl) bs) :
    ∀ b ∈ bs, b.containsPos p = true →
    ∀ b' ∈ bs, b'.containsPos p = true → b' = b := by
  induction bs with
  | nil => simp
  | cons x xs ih =>
    simp only [List.pairwise_cons] at hpw
    obtain ⟨hx, hxs⟩ := hpw
    intro b hb hbc b' hb' hbc'
    rcases List.mem_cons.mp hb with rfl | hb2 <;>
      rcases List.mem_cons.mp hb' with rfl | hb2'
    · rfl
    · exfalso
      obtain ⟨h1, h2⟩ := containsPos_line b p hbc
      obtain ⟨h3, h4⟩ := containsPos_line b' p hbc'
      have := hx b' hb2'
      omega
    · exfalso
      obtain ⟨h1, h2⟩ := containsPos_line b p hbc
      obtain ⟨h3, h4⟩ := containsPos_line b' p hbc'
      have := hx b hb2
      omega
    · exact ih hxs b hb2 hbc b' hb2' hbc'

theorem mem_strip_transfer (bs cs : List Block)
    (h : stripIds bs = stripIds cs) :
    ∀ b ∈ bs, ∃ c ∈ cs, b.strip = c.strip := by
  intro b hb
  have hmem : b.strip ∈ stripIds cs := by
    rw [← h]
    exact List.mem_map_of_mem _ hb
  simp only [stripIds, List.mem_map] at hmem
  obtain ⟨c, hc, hceq⟩ := hmem
  exact ⟨c, hc, hceq.symm⟩

theorem synced_pairwise (d : Doc) (hd : d.Synced) :
    List.Pairwise (fun a b => a.el < b.sl) d.blocks := by
  have hraws := (parseRawFrom_bounds d.opts 1 d.lines).2
  have hcanon := buildBlocks_pairwise (refMapOf (parseRaw d.opts d.lines))
    (parseRaw d.opts d.lines) hraws 1
  have h1 : List.Pairwise (fun a b : Block => a.el < b.sl)
      (stripIds (canonBlocks d.opts d.lines)) := by
    simp only [stripIds]
    exact (List.pairwise_map).mpr hcanon
  rw [← hd.1] at h1
  simp only [stripIds] at h1
  exact (List.pairwise_map).mp h1

theorem synced_el_le (d : Doc) (hd : d.Synced) :
    ∀ b ∈ d.blocks, b.el ≤ d.lines.length := by
  intro b hb
  obtain ⟨c, hc, hceq⟩ := mem_strip_transfer d.blocks
    (canonBlocks d.opts d.lines) hd.1 b hb
  have hcb := buildBlocks_el_lt (refMapOf (parseRaw d.opts d.lines)) 1
    (parseRaw d.opts d.lines) (d.lines.length + 1) ?bound c hc
  case bound =>
    intro r hr
    have := ((parseRawFrom_bounds d.opts 1 d.lines).1 r hr).2.2.1
    omega
  have : b.el = c.el := by
    have e1 : b.strip.el = c.strip.el := by rw [hceq]
    exact e1
  omega

/-- C6: `findNodeAtPosition` returns the deepest node whose source span
contains the position — the unique containing block, refined to its
covering inline child when one contains the position — and returns `null`
exactly on positions contained in no node's span (blank-line gaps between
nodes), in particular on positions beyond the document's range. -/
theorem findNodeAtPosition_deepest (d : Doc) (hd : d.Synced)
    (p : Nat × Nat) :
    (findNodeAtPosition d p = none ↔
      ∀ b ∈ d.blocks, b.containsPos p = false) ∧
    (∀ b, findNodeAtPosition d p = some (.blockNode b) →
      b ∈ d.blocks ∧ b.containsPos p = true ∧
      (∀ i ∈ b.inlines, i.containsPos p = false) ∧
      ∀ b' ∈ d.blocks, b'.containsPos p = true → b' = b) ∧
    (∀ i, findNodeAtPosition d p = some (.inlineNode i) →
      ∃ b ∈ d.blocks, i ∈ b.inlines ∧ i.containsPos p = true ∧
        b.containsPos p = true ∧
        ∀ b' ∈ d.blocks, b'.containsPos p = true → b' = b) ∧
    (d.lines.length < p.1 → findNodeAtPosition d p = none) := by
  have hpw := synced_pairwise d hd
  refine ⟨?_, ?_, ?_, ?_⟩
  · constructor
    · intro h b hb
      unfold findNodeAtPosition at h
      cases hfind : d.blocks.find? (fun b => b.containsPos p) with
      | none =>
        have := List.find?_eq_none.mp hfind b hb
        simpa using this
      | some b0 =>
        simp only [hfind] at h
        cases hfi : b0.inlines.find? (fun i => i.containsPos p) <;>
          simp only [hfi] at h <;> exact Option.noConfusion h
    · intro h
      unfold findNodeAtPosition
      have : d.blocks.find? (fun b => b.containsPos p) = none :=
        List.find?_eq_none.mpr (fun b hb => by simp [h b hb])
      rw [this]
  · intro b h
    unfold findNodeAtPosition at h
    cases hfind : d.blocks.find? (fun b => b.containsPos p) with
    | none => simp only [hfind] at h; exact Option.noConfusion h
    | some b0 =>
      simp only [hfind] at h
      cases hfi : b0.inlines.find? (fun i => i.containsPos p) with
      | none =>
        simp only [hfi, Option.some.injEq, FoundNode.blockNode.injEq] at h
        subst h
        have hmem := List.mem_of_find?_eq_some hfind
        have hcont := List.find?_some hfind
        refine ⟨hmem, hcont, ?_, ?_⟩
        · intro i hi
          have := List.find?_eq_none.mp hfi i hi
          simpa using this
        · exact fun b' hb' hc' =>
            pairwise_contains_unique d.blocks p hpw _ hmem hcont b' hb' hc'
      | some i0 =>
        simp only [hfi] at h
        simp at h
  · intro i h
    unfold findNodeAtPosition at h
    cases hfind : d.blocks.find? (fun b => b.containsPos p) with
    | none => simp only [hfind] at h; exact Option.noConfusion h
    | some b0 =>
      simp only [hfind] at h
      cases hfi : b0.inlines.find? (fun i => i.containsPos p) with
      | none => simp only [hfi] at h; simp at h
      | some i0 =>
        simp only [hfi, Option.some.injEq, FoundNode.inlineNode.injEq] at h
        subst h
        have hmem := List.mem_of_find?_eq_some hfind
        have hcont := List.find?_some hfind
        refine ⟨b0, hmem, List.mem_of_find?_eq_some hfi,
          by simpa using List.find?_some hfi, hcont, ?_⟩
        exact fun b' hb' hc' =>
          pairwise_contains_unique d.blocks p hpw b0 hmem hcont b' hb' hc'
  · intro hout
    unfold findNodeAtPosition
    have : d.blocks.find? (fun b => b.containsPos p) = none := by
      apply List.find?_eq_none.mpr
      intro b hb
      simp only [Bool.not_eq_true]
      cases hc : b.containsPos p with
      | false => rfl
      | true =>
        exfalso
        obtain ⟨h1, h2⟩ := containsPos_line b p hc
        have := synced_el_le d hd b hb
        omega
    rw [this]

/-- Witness for C6 on a concrete document and position. -/
theorem findNodeAtPosition_deepest_witness :
    (findNodeAtPosition (ToastMark.new "Hello\n\nWorld" {}) (2, 1) = none ↔
      ∀ b ∈ (ToastMark.new "Hello\n\nWorld" {}).blocks,
        b.containsPos (2, 1) = false) ∧
    (∀ b, findNodeAtPosition (ToastMark.new "Hello\n\nWorld" {}) (2, 1) =
        some (.blockNode b) →
      b ∈ (ToastMark.new "Hello\n\nWorld" {}).blocks ∧
      b.containsPos (2, 1) = true ∧
      (∀ i ∈ b.inlines, i.containsPos (2, 1) = false) ∧
      ∀ b' ∈ (ToastMark.new "Hello\n\nWorld" {}).blocks,
        b'.containsPos (2, 1) = true → b' = b) ∧
    (∀ i, findNodeAtPosition (ToastMark.new "Hello\n\nWorld" {}) (2, 1) =
        some (.inlineNode i) →
      ∃ b ∈ (ToastMark.new "Hello\n\nWorld" {}).blocks, i ∈ b.inlines ∧
        i.containsPos (2, 1) = true ∧ b.containsPos (2, 1) = true ∧
        ∀ b' ∈ (ToastMark.new "Hello\n\nWorld" {}).blocks,
          b'.containsPos (2, 1) = true → b' = b) ∧
    ((ToastMark.new "Hello\n\nWorld" {}).lines.length < 2 →
      findNodeAtPosition (ToastMark.new "Hello\n\nWorld" {}) (2, 1) =
        none) :=
  findNodeAtPosition_deepest (ToastMark.new "Hello\n\nWorld" {})
    (by decide) (2, 1)

/-- C8: linearization HTML-escapes exactly the five characters
`& < > " '` in the content of text tokens — any string free of the five is
emitted unchanged, each of the five becomes its entity — while the content
of html tokens is emitted verbatim. -/
theorem render_escapes_exactly_five :
    (∀ c : String, tokenHtml (.text c) = escapeHtml c) ∧
    (∀ c : String, tokenHtml (.html c) = c) ∧
    (∀ s : String, (∀ c ∈ s.data, c ∉ fiveEsc) → escapeHtml s = s) ∧
    escapeHtml (String.mk fiveEsc) = "&amp;&lt;&gt;&quot;&#39;" := by
  refine ⟨fun c => rfl, fun c => rfl, ?_, by decide⟩
  intro s h
  unfold escapeHtml
  have haux : ∀ l : List Char, (∀ c ∈ l, c ∉ fiveEsc) →
      l.flatMap (fun c => (escapeChar c).data) = l := by
    intro l
    induction l with
    | nil => intro _; rfl
    | cons c cs ih =>
      intro hl
      have hc := hl c (by simp)
      simp only [fiveEsc, List.mem_cons, List.mem_singleton, not_or] at hc
      obtain ⟨h1, h2, h3, h4, h5, -⟩ := hc
      rw [List.flatMap_cons, ih (fun x hx => hl x (by simp [hx]))]
      simp only [escapeChar, h1, h2, h3, h4, h5, if_false]
      rfl
  rw [haux s.data h]

/-- Witness for C8's non-five conjunct at a concrete string. -/
theorem render_escapes_exactly_five_witness :
    escapeHtml "Hello World" = "Hello World" ∧
    tokenHtml (.text "a<b") = escapeHtml "a<b" :=
  ⟨render_escapes_exactly_five.2.2.1 "Hello World" (by decide),
   render_escapes_exactly_five.1 "a<b"⟩

theorem taggedIds_append (a b : List Token) :
    taggedIds (a ++ b) = taggedIds a ++ taggedIds b := by
  simp [taggedIds, List.filterMap_append]

theorem taggedIds_inline_true (i : Inline) :
    taggedIds (inlineTokens true i) =
      match i.kind with
      | .link _ => [("a", toString i.id)]
      | .text => [] := by
  cases hk : i.kind <;> simp only [inlineTokens, hk] <;> rfl

theorem taggedIds_inline_false (i : Inline) :
    taggedIds (inlineTokens false i) = [] := by
  cases hk : i.kind <;> simp only [inlineTokens, hk] <;> rfl

theorem taggedIds_inlines_true (is : List Inline) :
    taggedIds (is.flatMap (inlineTokens true)) =
      is.flatMap (fun i =>
        match i.kind with
        | .link _ => [("a", toString i.id)]
        | .text => []) := by
  induction is with
  | nil => rfl
  | cons i is ih =>
    simp only [List.flatMap_cons]
    rw [taggedIds_append, taggedIds_inline_true i, ih]

theorem taggedIds_inlines_false (is : List Inline) :
    taggedIds (is.flatMap (inlineTokens false)) = [] := by
  induction is with
  | nil => rfl
  | cons i is ih =>
    simp only [List.flatMap_cons]
    rw [taggedIds_append, taggedIds_inline_false i, ih]
    rfl

theorem taggedIds_block_true (b : Block) :
    taggedIds (blockTokens true b) =
      match b.kind with
      | .paragraph =>
        ("p", toString b.id) :: b.inlines.flatMap (fun i =>
          match i.kind with
          | .link _ => [("a", toString i.id)]
          | .text => [])
      | .codeBlock => [("pre", toString b.id)]
      | .refDef => []
      | .htmlBlock => [("div", toString b.id)] := by
  cases hk : b.kind with
  | paragraph =>
    simp only [blockTokens, hk]
    rw [taggedIds_append]
    have hopen : taggedIds
        (Token.openTag "p" (idAttr true b.id) [] false true false ::
          b.inlines.flatMap (inlineTokens true)) =
        ("p", toString b.id) ::
          taggedIds (b.inlines.flatMap (inlineTokens true)) := rfl
    rw [hopen, taggedIds_inlines_true]
    have hclose : taggedIds [Token.closeTag "p" true false] =
      ([] : List (String × String)) := rfl
    rw [hclose]
    simp
  | codeBlock => simp only [blockTokens, hk]; rfl
  | refDef => simp only [blockTokens, hk]; rfl
  | htmlBlock => simp only [blockTokens, hk]; rfl

theorem taggedIds_block_false (b : Block) :
    taggedIds (blockTokens false b) = [] := by
  cases hk : b.kind with
  | paragraph =>
    simp only [blockTokens, hk]
    rw [taggedIds_append]
    have hopen : taggedIds
        (Token.openTag "p" (idAttr false b.id) [] false true false ::
          b.inlines.flatMap (inlineTokens false)) =
        taggedIds (b.inlines.flatMap (inlineTokens false)) := rfl
    rw [hopen, taggedIds_inlines_false]
    rfl
  | codeBlock => simp only [blockTokens, hk]; rfl
  | refDef => simp only [blockTokens, hk]; rfl
  | htmlBlock => simp only [blockTokens, hk]; rfl

/-- C9: with the `nodeId` render option on, exactly one open tag per
rendered node — the node's top-level tag — carries the `data-nodeid`
attribute with that node's id, in pre-order (nested tags of the same node,
such as a code block's inner `code` tag, carry none); with the option off
no tag carries it; and a raw-HTML block is wrapped in an extra `div`
carrying the attribute. -/
theorem nodeId_attribute_on_top_tags :
    (∀ bs : List Block, taggedIds (docTokens true bs) = nodeIdTags bs) ∧
    (∀ bs : List Block, taggedIds (docTokens false bs) = []) ∧
    (∀ b : Block, b.kind = BKind.htmlBlock →
      blockTokens true b =
        [.openTag "div" [("data-nodeid", toString b.id)] [] false true
          false, .html b.literal, .closeTag "div" true false]) := by
  refine ⟨?_, ?_, ?_⟩
  · intro bs
    induction bs with
    | nil => rfl
    | cons b bs ih =>
      simp only [docTokens, List.flatMap_cons] at ih ⊢
      rw [taggedIds_append, taggedIds_block_true, ih]
      simp only [nodeIdTags, List.flatMap_cons]
  · intro bs
    induction bs with
    | nil => rfl
    | cons b bs ih =>
      simp only [docTokens, List.flatMap_cons] at ih ⊢
      rw [taggedIds_append, taggedIds_block_false, ih]
      rfl
  · intro b hk
    simp only [blockTokens, hk]
    rfl

/-- Witness for C9's htmlBlock conjunct at a concrete node. -/
theorem nodeId_attribute_on_top_tags_witness :
    blockTokens true ⟨7, BKind.htmlBlock, "<li>Hi</li>", 1, 1, 1, 11, []⟩ =
      [.openTag "div" [("data-nodeid", "7")] [] false true false,
       .html "<li>Hi</li>", .closeTag "div" true false] := by
  have h := nodeId_attribute_on_top_tags.2.2
    ⟨7, BKind.htmlBlock, "<li>Hi</li>", 1, 1, 1, 11, []⟩ rfl
  exact h

theorem buildBlock_kind (rm : List (String × String)) (n : Nat)
    (r : RawBlock) :
    (buildBlock rm n r).1.kind =
      match r.kind with
      | RawKind.para => BKind.paragraph
      | RawKind.code => BKind.codeBlock
      | RawKind.refdef _ _ => BKind.refDef := by
  cases hk : r.kind <;> simp [buildBlock, hk]

theorem buildBlocks_mem (rm : List (String × String))
    (rs : List RawBlock) :
    ∀ (n : Nat) (r : RawBlock), r ∈ rs →
    ∃ b ∈ (buildBlocks rm n rs).1,
      b.sl = r.startLine ∧ b.el = r.endLine ∧
      (r.kind = RawKind.code → b.kind = BKind.codeBlock) := by
  induction rs with
  | nil => simp
  | cons r0 rs ih =>
    intro n r hr
    rcases List.mem_cons.mp hr with rfl | hr2
    · obtain ⟨h1, h2, _⟩ := buildBlock_spans rm n r
      refine ⟨(buildBlock rm n r).1, by simp [buildBlocks], h1, h2, ?_⟩
      intro hk
      rw [buildBlock_kind, hk]
    · obtain ⟨b, hb, hprops⟩ := ih (buildBlock rm n r0).2 r hr2
      exact ⟨b, by simp [buildBlocks, hb], hprops⟩

theorem strip_mem_rev (bs cs : List Block) (h : stripIds bs = stripIds cs) :
    ∀ c ∈ cs, ∃ b ∈ bs, b.kind = c.kind ∧ b.sl = c.sl ∧ b.el = c.el := by
  intro c hc
  obtain ⟨b, hb, hbeq⟩ := mem_strip_transfer cs bs h.symm c hc
  refine ⟨b, hb, ?_, ?_, ?_⟩
  · have : b.strip.kind = c.strip.kind := by rw [← hbeq]
    exact this
  · have : b.strip.sl = c.strip.sl := by rw [← hbeq]
    exact this
  · have : b.strip.el = c.strip.el := by rw [← hbeq]
    exact this

theorem fence_run (opts : ParserOptions) (ls : List String) :
    ∀ (k s n : Nat) (acc : List String),
    match firstIdx (fun l => decide (n ≤ fenceLen l)) ls with
    | some j => ∃ rest, (goCore opts k (.inFence s n acc) ls).1 =
        ⟨.code, s, acc ++ ls.take (j + 1)⟩ :: rest
    | none => (goCore opts k (.inFence s n acc) ls).1 = [] ∧
        (goCore opts k (.inFence s n acc) ls).2 =
          .inFence s n (acc ++ ls) := by
  induction ls with
  | nil => intro k s n acc; simp [goCore, firstIdx]
  | cons l ls ih =>
    intro k s n acc
    by_cases hcl : n ≤ fenceLen l
    · have hc' : decide (n ≤ fenceLen l) = true := decide_eq_true_eq.mpr hcl
      simp only [firstIdx, hc', if_true]
      refine ⟨(goCore opts (k + 1) .top ls).1, ?_⟩
      simp [goCore, pstep, hcl, List.take]
    · have hc' : decide (n ≤ fenceLen l) = false := by
        simp [hcl]
      simp only [firstIdx, hc', Bool.false_eq_true, if_false]
      have hrec := ih (k + 1) s n (acc ++ [l])
      cases hfi : firstIdx (fun l => decide (n ≤ fenceLen l)) ls with
      | some j' =>
        rw [hfi] at hrec
        obtain ⟨rest, hrest⟩ := hrec
        simp only [Option.map_some']
        refine ⟨rest, ?_⟩
        simp only [goCore, pstep, if_neg hcl]
        rw [hrest]
        simp only [List.nil_append]
        congr 2
        rw [List.take_succ_cons, List.append_assoc]
        rfl
      | none =>
        rw [hfi] at hrec
        obtain ⟨hblocks, hstate⟩ := hrec
        simp only [Option.map_none']
        constructor
        · simp only [goCore, pstep, if_neg hcl]
          rw [hblocks]
          rfl
        · simp only [goCore, pstep, if_neg hcl]
          rw [hstate, List.append_assoc]
          rfl

theorem firstIdx_lt (p : String → Bool) (ls : List String) :
    ∀ j, firstIdx p ls = some j → j < ls.length := by
  induction ls with
  | nil => intro j h; simp [firstIdx] at h
  | cons l ls ih =>
    intro j h
    simp only [firstIdx] at h
    split_ifs at h with hp
    · simp only [Option.some.injEq] at h
      simp only [List.length_cons]
      omega
    · cases hfi : firstIdx p ls with
      | none => rw [hfi] at h; simp at h
      | some j' =>
        rw [hfi] at h
        simp only [Option.map_some', Option.some.injEq] at h
        have := ih j' hfi
        simp only [List.length_cons]
        omega

/-- C4: after any successful edit, every line `L` of the resulting buffer
that opens a backtick fence (three or more leading backticks, with the
parser not already inside an open fence at `L`) yields in the resulting
tree a code block spanning from `L` through the next matching closing
fence, or through the document end when no closer exists — the reparse
reflects the fence interpretation of all those lines, not only the
touched one. -/
theorem fence_edit_reparses_to_closer (d : Doc) (s e : Nat × Nat)
    (t : String) (d' : Doc) (rs : List EditResult) (hd : d.Synced)
    (h : editMarkdown d s e t = .ok (d', rs)) (L : Nat) (hL1 : 1 ≤ L)
    (hL2 : L ≤ d'.lines.length)
    (hF : isFenceOpen (d'.lines.getD (L - 1) "") = true)
    (hst : (goCore d'.opts 1 .top (d'.lines.take (L - 1))).2.isFence =
      false) :
    ∃ b ∈ d'.blocks, b.kind = BKind.codeBlock ∧ b.sl = L ∧
      b.el = (match findCloser d'.lines L
          (fenceLen (d'.lines.getD (L - 1) "")) with
        | some j => j
        | none => d'.lines.length) := by
  obtain ⟨hstrip, -⟩ := editMarkdown_synced d s e t d' rs hd h
  set lineL := d'.lines.getD (L - 1) "" with hlineLdef
  have hlen1 : (d'.lines.take (L - 1)).length = L - 1 := by
    rw [List.length_take]; omega
  have hidx : L - 1 < d'.lines.length := by omega
  have hL' : L - 1 + 1 = L := by omega
  have hdropsplit : d'.lines.drop (L - 1) = lineL :: d'.lines.drop L := by
    rw [hlineLdef, List.drop_eq_getElem_cons hidx,
      List.getD_eq_getElem d'.lines "" hidx, hL']
  have hApp := goCore_append d'.opts (d'.lines.take (L - 1))
    (d'.lines.drop (L - 1)) 1 .top
  rw [List.take_append_drop, hlen1] at hApp
  have hws : 1 + (L - 1) = L := by omega
  rw [hws] at hApp
  have hnb : isBlank lineL = false := fence_open_not_blank hF
  have hFo : isFenceOpen lineL = true := hF
  -- the state after consuming line L is an open fence at L
  have hstep : ∃ pre : List RawBlock,
      goCore d'.opts L (goCore d'.opts 1 .top (d'.lines.take (L - 1))).2
        (d'.lines.drop (L - 1)) =
      (pre ++ (goCore d'.opts (L + 1)
          (.inFence L (fenceLen lineL) [lineL]) (d'.lines.drop L)).1,
        (goCore d'.opts (L + 1)
          (.inFence L (fenceLen lineL) [lineL]) (d'.lines.drop L)).2) := by
    rw [hdropsplit]
    cases hstA : (goCore d'.opts 1 .top (d'.lines.take (L - 1))).2 with
    | top =>
      refine ⟨[], ?_⟩
      simp [goCore, pstep, hnb, hFo]
    | inPara s0 acc0 =>
      refine ⟨[⟨.para, s0, acc0⟩], ?_⟩
      simp [goCore, pstep, hnb, hFo]
    | inFence s0 n0 acc0 =>
      rw [hstA] at hst
      simp [PState.isFence] at hst
  obtain ⟨pre, hpre⟩ := hstep
  have hrun := fence_run d'.opts (d'.lines.drop L) (L + 1) L
    (fenceLen lineL) [lineL]
  have hremem : ∃ r ∈ parseRaw d'.opts d'.lines, r.kind = RawKind.code ∧
      r.startLine = L ∧
      r.endLine = (match findCloser d'.lines L (fenceLen lineL) with
        | some j => j
        | none => d'.lines.length) := by
    cases hfi : firstIdx (fun l => decide (fenceLen lineL ≤ fenceLen l))
        (d'.lines.drop L) with
    | some k =>
      rw [hfi] at hrun
      obtain ⟨rest, hrest⟩ := hrun
      have hk := firstIdx_lt _ _ k hfi
      rw [List.length_drop] at hk
      refine ⟨⟨.code, L, [lineL] ++ (d'.lines.drop L).take (k + 1)⟩,
        ?_, rfl, rfl, ?_⟩
      · unfold parseRaw parseRawFrom
        rw [hApp, hpre, hrest]
        simp
      · have hcl : findCloser d'.lines L (fenceLen lineL) =
            some (L + k + 1) := by
          unfold findCloser
          rw [hfi]
        rw [hcl]
        simp only [RawBlock.endLine, List.length_append,
          List.length_singleton, List.length_take, List.length_drop]
        have hmin : (k + 1) ⊓ (d'.lines.length - L) = k + 1 :=
          Nat.min_eq_left (by omega)
        rw [hmin, Nat.add_comm 1 (k + 1), ← Nat.add_assoc,
          Nat.add_sub_cancel, Nat.add_assoc]
    | none =>
      rw [hfi] at hrun
      obtain ⟨hblocks, hstate⟩ := hrun
      refine ⟨⟨.code, L, [lineL] ++ d'.lines.drop L⟩, ?_, rfl, rfl, ?_⟩
      · unfold parseRaw parseRawFrom
        rw [hApp, hpre, hblocks, hstate]
        simp [pflush]
      · have hcl : findCloser d'.lines L (fenceLen lineL) = none := by
          unfold findCloser
          rw [hfi]
        rw [hcl]
        simp only [RawBlock.endLine, List.length_append,
          List.length_singleton, List.length_drop]
        omega
  obtain ⟨r, hrmem, hrk, hrsl, hrel⟩ := hremem
  obtain ⟨b, hbmem, hbsl, hbel, hbk⟩ := buildBlocks_mem
    (refMapOf (parseRaw d'.opts d'.lines)) (parseRaw d'.opts d'.lines) 1
    r hrmem
  have hbcanon : b ∈ canonBlocks d'.opts d'.lines := hbmem
  obtain ⟨b', hb'mem, hb'k, hb'sl, hb'el⟩ := strip_mem_rev d'.blocks
    (canonBlocks d'.opts d'.lines) hstrip b hbcanon
  refine ⟨b', hb'mem, ?_, ?_, ?_⟩
  · rw [hb'k, hbk hrk]
  · rw [hb'sl, hbsl, hrsl]
  · rw [hb'el, hbel, hrel]

/-- Witness for C4 at the repository's fence scenario. -/
theorem fence_edit_reparses_to_closer_witness :
    ∃ b ∈ editBlocks
        (ToastMark.new (String.mk [fenceChar, fenceChar] ++
          "\nHello\n\nMy World") {}) (1, 3) (1, 3)
        (String.mk [fenceChar]),
      b.kind = BKind.codeBlock ∧ b.sl = 1 ∧ b.el = 4 := by
  rcases hed : editMarkdown
      (ToastMark.new (String.mk [fenceChar, fenceChar] ++
        "\nHello\n\nMy World") {}) (1, 3) (1, 3) (String.mk [fenceChar])
    with err | p
  · exfalso
    have hok : (editMarkdown
        (ToastMark.new (String.mk [fenceChar, fenceChar] ++
          "\nHello\n\nMy World") {}) (1, 3) (1, 3)
        (String.mk [fenceChar])).isOk = true := by decide
    rw [hed] at hok
    simp [Except.isOk, Except.toBool] at hok
  · obtain ⟨d2, rs2⟩ := p
    have hlines : d2.lines = [String.mk [fenceChar, fenceChar, fenceChar],
        "Hello", "", "My World"] := by
      have := congrArg (fun x => match x with
        | Except.ok (dd, _) => dd.lines
        | Except.error _ => []) hed
      simp at this
      rw [← this]
      decide
    obtain ⟨b, hbmem, hbprops⟩ := fence_edit_reparses_to_closer
      (ToastMark.new (String.mk [fenceChar, fenceChar] ++
        "\nHello\n\nMy World") {}) (1, 3) (1, 3) (String.mk [fenceChar])
      d2 rs2 (by decide) hed 1 (by omega) (by rw [hlines]; decide)
      (by rw [hlines]; decide) (by simp [goCore, PState.isFence])
    refine ⟨b, ?_, ?_⟩
    · simp only [editBlocks, hed]
      exact hbmem
    · have hcl : (match findCloser d2.lines 1
          (fenceLen (d2.lines.getD 0 "")) with
        | some j => j
        | none => d2.lines.length) = 4 := by
        rw [hlines]; decide
      obtain ⟨h1, h2, h3⟩ := hbprops
      rw [hcl] at h3
      exact ⟨h1, h2, h3⟩

/-! # Window-selection lemmas -/

theorem rawAt_some (raws : List RawBlock) (l : Nat) (r : RawBlock)
    (h : rawAt raws l = some r) :
    r ∈ raws ∧ r.startLine ≤ l ∧ l ≤ r.endLine := by
  unfold rawAt at h
  have hm := List.mem_of_find?_eq_some h
  have hp := List.find?_some h
  simp only [Bool.and_eq_true, decide_eq_true_eq] at hp
  exact ⟨hm, hp.1, hp.2⟩

theorem extendLeft_le (raws : List RawBlock) :
    ∀ f ws, extendLeft raws f ws ≤ ws := by
  intro f
  induction f with
  | zero => intro ws; exact le_refl ws
  | succ f ih =>
    intro ws
    simp only [extendLeft]
    split_ifs with h1
    · exact le_refl ws
    · cases hra : rawAt raws (ws - 1) with
      | none => simp only [hra]; exact le_refl ws
      | some r =>
        simp only [hra]
        split_ifs with hk
        · have h2 := (rawAt_some raws (ws - 1) r hra).2.1
          have h3 := ih r.startLine
          omega
        · exact le_refl ws

theorem findCloser_some_bounds (nl : List String) (wn n j : Nat)
    (h : findCloser nl wn n = some j) : wn < j ∧ j ≤ nl.length := by
  unfold findCloser at h
  cases hfi : firstIdx (fun l => decide (n ≤ fenceLen l)) (nl.drop wn) with
  | none => rw [hfi] at h; exact Option.noConfusion h
  | some k =>
    rw [hfi] at h
    simp only [Option.some.injEq] at h
    have hk := firstIdx_lt _ _ k hfi
    rw [List.length_drop] at hk
    omega

theorem extendRight_ge (opts : ParserOptions) (raws : List RawBlock)
    (ol nl : List String) (ws m : Nat)
    (hbnd : ∀ r ∈ raws, r.endLine ≤ ol.length) (hm : m ≤ ol.length) :
    ∀ f weOld, m ≤ weOld → weOld ≤ ol.length →
      m ≤ extendRight opts raws ol nl ws f weOld ∧
      extendRight opts raws ol nl ws f weOld ≤ ol.length := by
  intro f
  induction f with
  | zero => intro weOld h1 h2; exact ⟨hm, le_refl _⟩
  | succ f ih =>
    intro weOld h1 h2
    simp only [extendRight]
    split
    · exact ⟨h1, h2⟩
    · split_ifs with hle hbf
      · exact ⟨h1, h2⟩
      · exact ⟨h1, h2⟩
      · have hlt : weOld < ol.length := by omega
        have ha : m ≤ weOld + 1 := by omega
        have hb : weOld + 1 ≤ ol.length := by omega
        split
        · rename_i r hra
          have hr := (rawAt_some raws (weOld + 1) r hra).1
          have hre := hbnd r hr
          exact ih (max r.endLine (weOld + 1))
            (le_trans ha (le_max_right _ _)) (max_le hre hb)
        · exact ih (weOld + 1) ha hb
    · split_ifs with hle
      · exact ⟨hm, le_refl _⟩
      · split
        · rename_i j hfc
          obtain ⟨hj1, hj2⟩ := findCloser_some_bounds nl _ _ j hfc
          have hlt : weOld < ol.length := by omega
          have ha : m ≤ weOld + (j - (weOld + nl.length - ol.length)) := by
            omega
          have hb : weOld + (j - (weOld + nl.length - ol.length)) ≤
              ol.length := by
            omega
          split
          · rename_i r hra
            have hr := (rawAt_some raws _ r hra).1
            have hre := hbnd r hr
            exact ih (max r.endLine
                (weOld + (j - (weOld + nl.length - ol.length))))
              (le_trans ha (le_max_right _ _)) (max_le hre hb)
          · exact ih (weOld + (j - (weOld + nl.length - ol.length))) ha hb
        · exact ⟨hm, le_refl _⟩

theorem windowStart_le (d : Doc) (s : Nat × Nat) : windowStart d s ≤ s.1 := by
  simp only [windowStart]
  cases hra : rawAt (parseRaw d.opts d.lines) s.1 with
  | none =>
    show extendLeft (parseRaw d.opts d.lines) (s.1 + 1) s.1 ≤ s.1
    exact extendLeft_le _ _ _
  | some r =>
    show extendLeft (parseRaw d.opts d.lines) (r.startLine + 1)
      r.startLine ≤ s.1
    have h1 := (rawAt_some _ _ r hra).2.1
    have h2 := extendLeft_le (parseRaw d.opts d.lines) (r.startLine + 1)
      r.startLine
    omega

theorem windowEndOld_ge (d : Doc) (s e : Nat × Nat) (t : String)
    (hs : s.1 ≤ d.lines.length) (he : e.1 ≤ d.lines.length) :
    e.1 ≤ windowEndOld d s e t := by
  have hbnd : ∀ r ∈ parseRaw d.opts d.lines, r.endLine ≤ d.lines.length := by
    intro r hr
    have := ((parseRawFrom_bounds d.opts 1 d.lines).1 r hr).2.2.1
    omega
  have hws := windowStart_le d s
  simp only [windowEndOld]
  cases hra : rawAt (parseRaw d.opts d.lines) e.1 with
  | none =>
    show e.1 ≤ extendRight d.opts (parseRaw d.opts d.lines) d.lines
      (spliceLines d.lines s e t) (windowStart d s) (d.lines.length + 1)
      (max e.1 (windowStart d s))
    exact (extendRight_ge d.opts (parseRaw d.opts d.lines) d.lines
      (spliceLines d.lines s e t) (windowStart d s) e.1 hbnd he
      (d.lines.length + 1) (max e.1 (windowStart d s))
      (by omega) (by omega)).1
  | some r =>
    obtain ⟨hrm, -, hrel⟩ := rawAt_some _ _ r hra
    have hre := hbnd r hrm
    show e.1 ≤ extendRight d.opts (parseRaw d.opts d.lines) d.lines
      (spliceLines d.lines s e t) (windowStart d s) (d.lines.length + 1)
      (max r.endLine (windowStart d s))
    exact (extendRight_ge d.opts (parseRaw d.opts d.lines) d.lines
      (spliceLines d.lines s e t) (windowStart d s) e.1 hbnd he
      (d.lines.length + 1) (max r.endLine (windowStart d s))
      (by omega) (by omega)).1

theorem windowOldLines_mem (ol : List String) (ws we j : Nat)
    (h1 : 1 ≤ ws) (h2 : ws ≤ j) (h3 : j ≤ we) (h4 : j ≤ ol.length) :
    ol.getD (j - 1) "" ∈ windowOldLines ol ws we := by
  have hj : j - 1 < ol.length := by omega
  have hidx : j - ws < ((ol.take we).drop (ws - 1)).length := by
    rw [List.length_drop, List.length_take]; omega
  have heq : ((ol.take we).drop (ws - 1)).get ⟨j - ws, hidx⟩ =
      ol.getD (j - 1) "" := by
    rw [List.getD_eq_getElem ol "" hj]
    show ((ol.take we).drop (ws - 1))[j - ws] = ol[j - 1]
    rw [List.getElem_drop, List.getElem_take]
    congr 1
    omega
  show ol.getD (j - 1) "" ∈ (ol.take we).drop (ws - 1)
  rw [← heq]
  exact ((ol.take we).drop (ws - 1)).get_mem _ _

theorem guardOK_refdef_contra (opts : ParserOptions) (ol nl : List String)
    (ws we j : Nat) (hopt : opts.referenceDefinition = true)
    (hws : ws ≤ j) (hwe : j ≤ we) (hj2 : j ≤ ol.length)
    (hrd : isRefDefLine (ol.getD (j - 1) "") = true)
    (hg : guardOK opts ol nl ws we = true) : False := by
  simp only [guardOK, Bool.and_eq_true, decide_eq_true_eq] at hg
  obtain ⟨⟨⟨⟨⟨⟨⟨⟨⟨⟨hA, -⟩, -⟩, -⟩, -⟩, -⟩, -⟩, -⟩, -⟩, -⟩, hRef⟩ := hg
  rw [hopt] at hRef
  simp only [Bool.not_true, Bool.false_or, Bool.and_eq_true] at hRef
  obtain ⟨hOld, -⟩ := hRef
  rw [List.all_eq_true] at hOld
  have hmem := windowOldLines_mem ol ws we j hA hws hwe hj2
  have hx := hOld _ hmem
  rw [hrd] at hx
  exact absurd hx (by decide)

theorem editMarkdown_err_pos (d : Doc) (s e : Nat × Nat) (t : String)
    (hv : (posValid d.lines s && posValid d.lines e) = false) :
    editMarkdown d s e t = .error .outOfRange := by
  unfold editMarkdown
  rw [hv]
  rfl

theorem editMarkdown_err_order (d : Doc) (s e : Nat × Nat) (t : String)
    (hv : (posValid d.lines s && posValid d.lines e) = true)
    (ho : posLe s e = false) :
    editMarkdown d s e t = .error .invalidEdit := by
  unfold editMarkdown
  rw [hv, ho]
  rfl

theorem buildBlocks_para_inlines (rm : List (String × String))
    (rs : List RawBlock) :
    ∀ n : Nat, ∀ b ∈ (buildBlocks rm n rs).1, ∀ i ∈ b.inlines,
      i.kind = (inlineContent rm b.literal).1 ∧
      i.literal = (inlineContent rm b.literal).2 := by
  induction rs with
  | nil => intro n b hb; simp [buildBlocks] at hb
  | cons r rs ih =>
    intro n b hb i hi
    simp only [buildBlocks, List.mem_cons] at hb
    rcases hb with rfl | hb2
    · cases hk : r.kind with
      | para =>
        simp only [buildBlock, hk, List.mem_singleton] at hi
        subst hi
        simp [buildBlock, hk, inlineOf]
      | code =>
        simp only [buildBlock, hk, List.not_mem_nil] at hi
      | refdef lab dest =>
        simp only [buildBlock, hk, List.not_mem_nil] at hi
    · exact ih _ b hb2 i hi

theorem synced_sl_le (d : Doc) (hd : d.Synced) :
    ∀ b ∈ d.blocks, b.sl ≤ b.el := by
  intro b hb
  obtain ⟨c, hc, hceq⟩ := mem_strip_transfer d.blocks
    (canonBlocks d.opts d.lines) hd.1 b hb
  obtain ⟨r, hr, hsl, hel, -⟩ := buildBlocks_spans
    (refMapOf (parseRaw d.opts d.lines)) (parseRaw d.opts d.lines) 1 c hc
  have hrb := ((parseRawFrom_bounds d.opts 1 d.lines).1 r hr).2.2.2
  have e1 : b.sl = c.sl := by
    have h := congrArg Block.sl hceq
    exact h
  have e2 : b.el = c.el := by
    have h := congrArg Block.el hceq
    exact h
  omega

theorem mem_takeWhile_blocks (ws : Nat) :
    ∀ bs : List Block, List.Pairwise (fun a b => a.el < b.sl) bs →
    (∀ b ∈ bs, b.sl ≤ b.el) → ∀ b ∈ bs, b.el < ws →
      b ∈ bs.takeWhile (fun x => decide (x.el < ws)) := by
  intro bs
  induction bs with
  | nil => intro _ _ b hb; simp at hb
  | cons x xs ih =>
    intro hpw hse b hb hel
    simp only [List.pairwise_cons] at hpw
    rcases List.mem_cons.mp hb with rfl | hb2
    · rw [List.takeWhile_cons_of_pos (by simpa using hel)]
      exact List.mem_cons_self _ _
    · have hx : x.el < ws := by
        have hxb := hpw.1 b hb2
        have hbb := hse b (List.mem_cons_of_mem x hb2)
        omega
      rw [List.takeWhile_cons_of_pos (by simpa using hx)]
      exact List.mem_cons_of_mem x
        (ih hpw.2 (fun c hc => hse c (List.mem_cons_of_mem x hc)) b hb2 hel)

theorem mem_dropWhile_not (p : Block → Bool) :
    ∀ (l : List Block) (b : Block), b ∈ l → p b = false →
      b ∈ l.dropWhile p := by
  intro l
  induction l with
  | nil => intro b hb hp; simp at hb
  | cons x xs ih =>
    intro b hb hp
    rcases List.mem_cons.mp hb with rfl | hb2
    · rw [List.dropWhile_cons, hp]
      simp
    · rw [List.dropWhile_cons]
      cases hx : p x with
      | true => simpa using ih b hb2 hp
      | false => simp [hb2]

theorem editMarkdown_guarded_eq (d : Doc) (s e : Nat × Nat) (t : String)
    (hv : (posValid d.lines s && posValid d.lines e) = true)
    (ho : posLe s e = true)
    (hg : guardOK d.opts d.lines (spliceLines d.lines s e t)
      (windowStart d s) (windowEndOld d s e t) = true) :
    editMarkdown d s e t = .ok
      (⟨d.opts, spliceLines d.lines s e t,
        d.blocks.takeWhile (fun b => decide (b.el < windowStart d s)) ++
          (buildBlocks
            (refMapOf (parseRaw d.opts (spliceLines d.lines s e t)))
            d.nextId
            (parseRawFrom d.opts (windowStart d s)
              (windowNewLines (spliceLines d.lines s e t) (windowStart d s)
                (windowEndOld d s e t +
                  (spliceLines d.lines s e t).length -
                  d.lines.length)))).1 ++
          (d.blocks.dropWhile
              (fun b => decide (b.sl ≤ windowEndOld d s e t))).map
            (shiftBlock (windowEndOld d s e t)
              (windowEndOld d s e t + (spliceLines d.lines s e t).length -
                d.lines.length)),
        (buildBlocks
          (refMapOf (parseRaw d.opts (spliceLines d.lines s e t)))
          d.nextId
          (parseRawFrom d.opts (windowStart d s)
            (windowNewLines (spliceLines d.lines s e t) (windowStart d s)
              (windowEndOld d s e t + (spliceLines d.lines s e t).length -
                d.lines.length)))).2⟩,
      [⟨windowStart d s,
        windowEndOld d s e t + (spliceLines d.lines s e t).length -
          d.lines.length,
        (buildBlocks
          (refMapOf (parseRaw d.opts (spliceLines d.lines s e t)))
          d.nextId
          (parseRawFrom d.opts (windowStart d s)
            (windowNewLines (spliceLines d.lines s e t) (windowStart d s)
              (windowEndOld d s e t + (spliceLines d.lines s e t).length -
                d.lines.length)))).1⟩]) := by
  have hg2 := hg
  simp only [windowStart, windowEndOld] at hg2
  simp only [editMarkdown, hv, ho, Bool.not_true, Bool.false_eq_true,
    if_false, hg2, eq_self_iff_true, if_true]
  simp only [windowStart, windowEndOld]

/-- C5: for every successful `editMarkdown` whose edited line range touches
a reference-definition shaped line of the old buffer, with the
`referenceDefinition` option enabled, the engine performs a full-document
reparse: the resulting tree is exactly the fresh parse of the whole new
text with freshly allocated ids (so every link anywhere in the document
resolves its label against the reference map of the entire new text,
reverting to plain text when the label no longer matches), and a single
`EditResult` covering the whole buffer is returned. -/
theorem refdef_edit_full_reparse (d : Doc) (s e : Nat × Nat) (t : String)
    (d' : Doc) (rs : List EditResult)
    (hopt : d.opts.referenceDefinition = true)
    (h : editMarkdown d s e t = .ok (d', rs))
    (j : Nat) (hj1 : s.1 ≤ j) (hj2 : j ≤ e.1)
    (hrd : isRefDefLine (d.lines.getD (j - 1) "") = true) :
    d'.blocks = (canonFrom d.opts d.nextId d'.lines).1 ∧
    rs = [⟨1, d'.lines.length, d'.blocks⟩] ∧
    (∀ b ∈ d'.blocks, d.nextId ≤ b.id) ∧
    ∀ b ∈ d'.blocks, ∀ i ∈ b.inlines,
      i.kind = (inlineContent (refMapOf (parseRaw d.opts d'.lines))
        b.literal).1 ∧
      i.literal = (inlineContent (refMapOf (parseRaw d.opts d'.lines))
        b.literal).2 := by
  cases hv : (posValid d.lines s && posValid d.lines e) with
  | false =>
    rw [editMarkdown_err_pos d s e t hv] at h
    exact Except.noConfusion h
  | true =>
  cases ho : posLe s e with
  | false =>
    rw [editMarkdown_err_order d s e t hv ho] at h
    exact Except.noConfusion h
  | true =>
  have hv2 := hv
  simp only [Bool.and_eq_true] at hv2
  have hsv := hv2.1
  have hev := hv2.2
  simp only [posValid, Bool.and_eq_true, decide_eq_true_eq] at hsv hev
  obtain ⟨⟨⟨hs1, hs2⟩, -⟩, -⟩ := hsv
  obtain ⟨⟨⟨he1, he2⟩, -⟩, -⟩ := hev
  have hgf : guardOK d.opts d.lines (spliceLines d.lines s e t)
      (windowStart d s) (windowEndOld d s e t) = false := by
    cases hgb : guardOK d.opts d.lines (spliceLines d.lines s e t)
        (windowStart d s) (windowEndOld d s e t) with
    | false => rfl
    | true =>
      exact (guardOK_refdef_contra d.opts d.lines
        (spliceLines d.lines s e t) (windowStart d s)
        (windowEndOld d s e t) j hopt
        (le_trans (windowStart_le d s) hj1)
        (le_trans hj2 (windowEndOld_ge d s e t hs2 he2))
        (le_trans hj2 he2) hrd hgb).elim
  simp only [windowStart, windowEndOld] at hgf
  simp only [editMarkdown, hv, ho, Bool.not_true, Bool.false_eq_true,
    if_false, hgf] at h
  simp only [Except.ok.injEq, Prod.mk.injEq] at h
  obtain ⟨hdoc, hrs⟩ := h
  subst hdoc
  refine ⟨rfl, hrs.symm, ?_, ?_⟩
  · intro b hb
    exact (buildBlocks_ids
      (refMapOf (parseRaw d.opts (spliceLines d.lines s e t)))
      (parseRaw d.opts (spliceLines d.lines s e t)) d.nextId).2.2 b hb
  · intro b hb i hi
    exact buildBlocks_para_inlines
      (refMapOf (parseRaw d.opts (spliceLines d.lines s e t)))
      (parseRaw d.opts (spliceLines d.lines s e t)) d.nextId b hb i hi

/-- Witness for C5 at the repository's reference-definition scenario: the
destination of the definition line is edited, the whole document is
reparsed with fresh ids and a single full-range result. -/
theorem refdef_edit_full_reparse_witness :
    editResults (ToastMark.new "[foo]\n\n[foo]: /url" ⟨true⟩) (3, 8) (3, 12)
        "/new" =
      [⟨1, 3, editBlocks (ToastMark.new "[foo]\n\n[foo]: /url" ⟨true⟩)
        (3, 8) (3, 12) "/new"⟩] ∧
    (editBlocks (ToastMark.new "[foo]\n\n[foo]: /url" ⟨true⟩) (3, 8) (3, 12)
        "/new").all
      (fun b => decide ((ToastMark.new "[foo]\n\n[foo]: /url" ⟨true⟩).nextId
        ≤ b.id)) = true := by
  rcases hed : editMarkdown (ToastMark.new "[foo]\n\n[foo]: /url" ⟨true⟩)
      (3, 8) (3, 12) "/new" with err | p
  · exfalso
    have hok : (editMarkdown (ToastMark.new "[foo]\n\n[foo]: /url" ⟨true⟩)
        (3, 8) (3, 12) "/new").isOk = true := by decide
    rw [hed] at hok
    simp [Except.isOk, Except.toBool] at hok
  · obtain ⟨d2, rs2⟩ := p
    obtain ⟨hblocks, hrs, hids, hinl⟩ := refdef_edit_full_reparse
      (ToastMark.new "[foo]\n\n[foo]: /url" ⟨true⟩) (3, 8) (3, 12) "/new"
      d2 rs2 (by decide) hed 3 (by decide) (by decide) (by decide)
    have hlines : d2.lines = ["[foo]", "", "[foo]: /new"] := by
      have hx := congrArg (fun x => match x with
        | Except.ok (dd, _) => dd.lines
        | Except.error _ => []) hed
      simp at hx
      rw [← hx]
      decide
    constructor
    · simp only [editResults, editBlocks, hed]
      rw [hrs, hlines]
      rfl
    · simp only [editBlocks, hed]
      rw [List.all_eq_true]
      intro b hb
      rw [decide_eq_true_eq]
      exact hids b hb

/-- C2 counterexample: on the two-paragraph document `"Hello\n\nWorld"`
(paragraph ids 1 and 3), the edit `(1,3)-(1,3)` is a zero-width range
strictly inside the first paragraph's interior — it crosses no blank line
and no fence boundary — yet inserting replacement text that itself opens a
backtick fence makes the reparse swallow the rest of the document: the
edit succeeds and no block with the second paragraph's id 3 remains, so an
id outside the edited paragraph's subtree did change. -/
theorem para_interior_insert_changes_outside_id :
    (ToastMark.new "Hello\n\nWorld" {}).blocks.map
        (fun b => (b.id, b.kind, b.sl, b.el)) =
      [(1, BKind.paragraph, 1, 1), (3, BKind.paragraph, 3, 3)] ∧
    (editMarkdown (ToastMark.new "Hello\n\nWorld" {}) (1, 3) (1, 3)
        (String.mk ['\n', fenceChar, fenceChar, fenceChar])).isOk = true ∧
    (editBlocks (ToastMark.new "Hello\n\nWorld" {}) (1, 3) (1, 3)
        (String.mk ['\n', fenceChar, fenceChar, fenceChar])).all
      (fun b => decide (b.id ≠ 3)) = true := by
  exact ⟨by decide, by decide, by decide⟩

/-- C2 (amended): whenever a successful edit takes the guarded incremental
path (the seam conditions of the computed window hold — in particular the
replacement text does not itself open an unterminated construct reaching
past the window), the new tree splits into three regions: the old blocks
ending before the window (kept with identical ids and spans), a freshly
parsed window region whose nodes all carry brand-new ids (larger than
every old id, even where content is unchanged), and the old blocks
starting after the window (kept with their ids, spans shifted by the
line-count delta).  In particular every old node strictly outside the
window keeps its id.  The unqualified claim that an edit inside a
paragraph's interior can never change ids outside that paragraph is
refuted by `para_interior_insert_changes_outside_id`: replacement text
opening a fence widens the window beyond the paragraph. -/
theorem edit_frame_outside_window (d : Doc) (s e : Nat × Nat) (t : String)
    (d' : Doc) (rs : List EditResult) (hd : d.Synced)
    (h : editMarkdown d s e t = .ok (d', rs))
    (hg : guardOK d.opts d.lines (spliceLines d.lines s e t)
      (windowStart d s) (windowEndOld d s e t) = true) :
    ∃ fresh : List Block,
      d'.blocks =
        d.blocks.takeWhile (fun b => decide (b.el < windowStart d s)) ++
          fresh ++
          (d.blocks.dropWhile
              (fun b => decide (b.sl ≤ windowEndOld d s e t))).map
            (shiftBlock (windowEndOld d s e t)
              (windowEndOld d s e t + (spliceLines d.lines s e t).length -
                d.lines.length)) ∧
      (∀ b ∈ fresh, d.nextId ≤ b.id ∧ (∀ c ∈ d.blocks, c.id < b.id) ∧
        windowStart d s ≤ b.sl ∧
        b.el ≤ windowEndOld d s e t + (spliceLines d.lines s e t).length -
          d.lines.length) ∧
      (∀ b ∈ d.blocks, b.el < windowStart d s → b ∈ d'.blocks) ∧
      (∀ b ∈ d.blocks, windowEndOld d s e t < b.sl →
        shiftBlock (windowEndOld d s e t)
          (windowEndOld d s e t + (spliceLines d.lines s e t).length -
            d.lines.length) b ∈ d'.blocks) := by
  cases hv : (posValid d.lines s && posValid d.lines e) with
  | false =>
    rw [editMarkdown_err_pos d s e t hv] at h
    exact Except.noConfusion h
  | true =>
  cases ho : posLe s e with
  | false =>
    rw [editMarkdown_err_order d s e t hv ho] at h
    exact Except.noConfusion h
  | true =>
  have hgc := hg
  simp only [guardOK, Bool.and_eq_true, decide_eq_true_eq] at hgc
  obtain ⟨⟨⟨⟨⟨⟨⟨⟨⟨⟨h1, h2⟩, h3⟩, h4⟩, h5⟩, -⟩, -⟩, -⟩, -⟩, -⟩, -⟩ := hgc
  rw [editMarkdown_guarded_eq d s e t hv ho hg] at h
  simp only [Except.ok.injEq, Prod.mk.injEq] at h
  obtain ⟨hdoc, hrs⟩ := h
  subst hdoc
  refine ⟨_, rfl, ?_, ?_, ?_⟩
  · intro b hb
    have hids := (buildBlocks_ids
      (refMapOf (parseRaw d.opts (spliceLines d.lines s e t)))
      (parseRawFrom d.opts (windowStart d s)
        (windowNewLines (spliceLines d.lines s e t) (windowStart d s)
          (windowEndOld d s e t + (spliceLines d.lines s e t).length -
            d.lines.length))) d.nextId).2.2 b hb
    refine ⟨hids, ?_, ?_, ?_⟩
    · intro c hc
      exact lt_of_lt_of_le (hd.2 c hc).1 hids
    · obtain ⟨r, hr, hsl, -, -⟩ := buildBlocks_spans
        (refMapOf (parseRaw d.opts (spliceLines d.lines s e t)))
        (parseRawFrom d.opts (windowStart d s)
          (windowNewLines (spliceLines d.lines s e t) (windowStart d s)
            (windowEndOld d s e t + (spliceLines d.lines s e t).length -
              d.lines.length))) d.nextId b hb
      have hbd := ((parseRawFrom_bounds d.opts (windowStart d s)
        (windowNewLines (spliceLines d.lines s e t) (windowStart d s)
          (windowEndOld d s e t + (spliceLines d.lines s e t).length -
            d.lines.length))).1 r hr).1
      rw [hsl]
      exact hbd
    · obtain ⟨r, hr, -, hel, -⟩ := buildBlocks_spans
        (refMapOf (parseRaw d.opts (spliceLines d.lines s e t)))
        (parseRawFrom d.opts (windowStart d s)
          (windowNewLines (spliceLines d.lines s e t) (windowStart d s)
            (windowEndOld d s e t + (spliceLines d.lines s e t).length -
              d.lines.length))) d.nextId b hb
      have hbd := ((parseRawFrom_bounds d.opts (windowStart d s)
        (windowNewLines (spliceLines d.lines s e t) (windowStart d s)
          (windowEndOld d s e t + (spliceLines d.lines s e t).length -
            d.lines.length))).1 r hr).2.2.1
      have hlen : (windowNewLines (spliceLines d.lines s e t)
          (windowStart d s)
          (windowEndOld d s e t + (spliceLines d.lines s e t).length -
            d.lines.length)).length =
          min (windowEndOld d s e t + (spliceLines d.lines s e t).length -
            d.lines.length) (spliceLines d.lines s e t).length -
          (windowStart d s - 1) := by
        simp [windowNewLines, List.length_drop, List.length_take]
      rw [hlen] at hbd
      have key : ∀ wsv wnv lnl er : Nat, 1 ≤ wsv → wsv ≤ wnv + 1 →
          wnv ≤ lnl → er + 1 ≤ wsv + (min wnv lnl - (wsv - 1)) →
          er ≤ wnv := by
        intro wsv wnv lnl er k1 k2 k3 k4
        omega
      rw [hel]
      exact key (windowStart d s)
        (windowEndOld d s e t + (spliceLines d.lines s e t).length -
          d.lines.length)
        (spliceLines d.lines s e t).length r.endLine h1 h4 h5 hbd
  · intro b hb hel
    exact List.mem_append_left _ (List.mem_append_left _
      (mem_takeWhile_blocks (windowStart d s) d.blocks
        (synced_pairwise d hd) (synced_sl_le d hd) b hb hel))
  · intro b hb hsl
    have hpf : (fun x : Block =>
        decide (x.sl ≤ windowEndOld d s e t)) b = false := by
      simp only [decide_eq_false_iff_not]
      omega
    have hdm := mem_dropWhile_not
      (fun x : Block => decide (x.sl ≤ windowEndOld d s e t)) d.blocks b
      hb hpf
    exact List.mem_append_right _ (List.mem_map_of_mem _ hdm)

/-- Witness for C2 (amended) at the canonical comma insertion inside the
first paragraph of a two-paragraph document: the second paragraph (id 3)
survives the edit unchanged, id included. -/
theorem edit_frame_outside_window_witness :
    shiftBlock
        (windowEndOld (ToastMark.new "Hello\n\nWorld" {}) (1, 6) (1, 6) ",")
        (windowEndOld (ToastMark.new "Hello\n\nWorld" {}) (1, 6) (1, 6) "," +
          (spliceLines (ToastMark.new "Hello\n\nWorld" {}).lines (1, 6)
            (1, 6) ",").length -
          (ToastMark.new "Hello\n\nWorld" {}).lines.length)
        ⟨3, BKind.paragraph, "World", 3, 1, 3, 5,
          [⟨4, IKind.text, "World", 3, 1, 3, 5⟩]⟩ ∈
      editBlocks (ToastMark.new "Hello\n\nWorld" {}) (1, 6) (1, 6) "," := by
  rcases hed : editMarkdown (ToastMark.new "Hello\n\nWorld" {}) (1, 6)
      (1, 6) "," with err | p
  · exfalso
    have hok : (editMarkdown (ToastMark.new "Hello\n\nWorld" {}) (1, 6)
        (1, 6) ",").isOk = true := by decide
    rw [hed] at hok
    simp [Except.isOk, Except.toBool] at hok
  · obtain ⟨d2, rs2⟩ := p
    obtain ⟨fresh, hdec, hfr, hk1, hk2⟩ := edit_frame_outside_window
      (ToastMark.new "Hello\n\nWorld" {}) (1, 6) (1, 6) "," d2 rs2
      (by decide) hed (by decide)
    simp only [editBlocks, hed]
    exact hk2 ⟨3, BKind.paragraph, "World", 3, 1, 3, 5,
      [⟨4, IKind.text, "World", 3, 1, 3, 5⟩]⟩ (by decide) (by decide)

end ToastSpec
